import Mathlib

/-!
Verification development for the maths-parser core of the equality-checker
repository (src/checker/parsing/maths_parser.py).  The Python source is
shallowly embedded: strings are lists of characters, the regex substitutions
of cleanup_string are modelled as explicit scanners with the same
left-to-right non-overlapping match semantics, the token-stream
transformations are functions on token lists, and the sympy expression
objects are modelled by an inductive tree type SExpr whose constructors
correspond to the unevaluated nodes the parser builds.
-/

namespace EqualityChecker

/-! ## Character sanitizer (cleanup_string and helpers) -/

/-- Whitelist of allowed characters, from ALLOWED_CHARACTER_LIST: space,
brackets, the operator block 0x2A-0x2F, digits, comparison block 0x3C-0x3E,
upper case letters, caret and underscore, lower case letters, and the
plus-minus sign U+00B1. -/
def allowedChar (c : Char) : Bool :=
  c = ' ' || (0x28 ≤ c.toNat && c.toNat ≤ 0x29) || (0x2A ≤ c.toNat && c.toNat ≤ 0x2F)
  || (0x30 ≤ c.toNat && c.toNat ≤ 0x39) || (0x3C ≤ c.toNat && c.toNat ≤ 0x3E)
  || (0x41 ≤ c.toNat && c.toNat ≤ 0x5A) || (0x5E ≤ c.toNat && c.toNat ≤ 0x5F)
  || (0x61 ≤ c.toNat && c.toNat ≤ 0x7A) || c = '±'

/-- Characters matched by NON_ASCII_CHAR_REGEX are those above 0x7F. -/
def isAsciiChar (c : Char) : Bool := c.toNat ≤ 0x7F

/-- The relevant structure of a unicodedata character name, as consumed by
process_unicode_chars: a SUPERSCRIPT digit name, a SUPERSCRIPT name whose
second word is not a digit word (such as SUPERSCRIPT MINUS), a SUBSCRIPT
digit name, a SUBSCRIPT name that is not a digit name, a VULGAR FRACTION
name with numerator in NUMBERS and denominator in FRACTIONS, one of the
recognised operator sign names, or some other name that matches none of the
branches.  The non-digit SUPERSCRIPT and SUBSCRIPT shapes matter because the
run-continuation tests in the source are prev_name.startswith(SUPERSCRIPT)
and prev_name.startswith(SUBSCRIPT), which such names also satisfy even
though the characters themselves fall through to the final else branch. -/
inductive UniName where
  | supDigit (d : Char)
  | supOther
  | subDigit (d : Char)
  | subOther
  | vulgar (num den : Nat)
  | multSign
  | divSign
  | leSign
  | geSign
  | otherName
  deriving DecidableEq, Repr

/-- Table of the Unicode characters whose unicodedata names match a branch
condition of process_unicode_chars, mapping each to the shape of its name.
The superscript entries are every character whose name starts with
SUPERSCRIPT (the ten digits plus plus, minus, equals, the two parentheses,
latin small n and latin small i), the subscript entries every character
whose name starts with SUBSCRIPT (the ten digits plus plus, minus, equals
and the two parentheses), the vulgar entries every VULGAR FRACTION
character, and the operator entries the characters carrying the eight
operator names the source lists.  A character outside this table either has
no unicodedata name or has a name that matches no branch and starts with
neither SUPERSCRIPT nor SUBSCRIPT; in both cases the source emits the
character unchanged and the stored previous name passes none of the
run-continuation tests, which is exactly how the model treats the default
otherName shape. -/
def uniTable : List (Char × UniName) :=
  [('¹', .supDigit '1'), ('²', .supDigit '2'), ('³', .supDigit '3'),
   ('⁰', .supDigit '0'), ('⁴', .supDigit '4'), ('⁵', .supDigit '5'),
   ('⁶', .supDigit '6'), ('⁷', .supDigit '7'), ('⁸', .supDigit '8'),
   ('⁹', .supDigit '9'),
   ('⁺', .supOther), ('⁻', .supOther), ('⁼', .supOther),
   ('⁽', .supOther), ('⁾', .supOther), ('ⁿ', .supOther), ('ⁱ', .supOther),
   ('₀', .subDigit '0'), ('₁', .subDigit '1'), ('₂', .subDigit '2'),
   ('₃', .subDigit '3'), ('₄', .subDigit '4'), ('₅', .subDigit '5'),
   ('₆', .subDigit '6'), ('₇', .subDigit '7'), ('₈', .subDigit '8'),
   ('₉', .subDigit '9'),
   ('₊', .subOther), ('₋', .subOther), ('₌', .subOther),
   ('₍', .subOther), ('₎', .subOther),
   ('½', .vulgar 1 2), ('¼', .vulgar 1 4), ('¾', .vulgar 3 4),
   ('⅓', .vulgar 1 3), ('⅔', .vulgar 2 3), ('⅕', .vulgar 1 5),
   ('⅖', .vulgar 2 5), ('⅗', .vulgar 3 5), ('⅘', .vulgar 4 5),
   ('⅙', .vulgar 1 6), ('⅚', .vulgar 5 6), ('⅐', .vulgar 1 7),
   ('⅛', .vulgar 1 8), ('⅜', .vulgar 3 8), ('⅝', .vulgar 5 8),
   ('⅞', .vulgar 7 8), ('⅑', .vulgar 1 9), ('⅒', .vulgar 1 10),
   ('↉', .vulgar 0 3),
   ('×', .multSign), ('∗', .multSign),
   ('÷', .divSign), ('∕', .divSign),
   ('≤', .leSign), ('⩽', .leSign),
   ('≥', .geSign), ('⩾', .geSign),
   ('±', .otherName)]

/-- Modelled unicodedata.name lookup, restricted to the table above. -/
def uniName (c : Char) : Option UniName :=
  (uniTable.find? (fun p => p.1 = c)).map (fun p => p.2)

/-- Test whether a previous-name value starts with SUPERSCRIPT: true for
the superscript digit names and for the non-digit SUPERSCRIPT names. -/
def isSupName : Option UniName → Bool
  | some (.supDigit _) => true
  | some .supOther => true
  | _ => false

/-- Test whether a previous-name value starts with SUBSCRIPT: true for the
subscript digit names and for the non-digit SUBSCRIPT names. -/
def isSubName : Option UniName → Bool
  | some (.subDigit _) => true
  | some .subOther => true
  | _ => false

/-- Decimal digit characters of a small natural number (the table only holds
numerators and denominators up to ten). -/
def smallDigits (n : Nat) : List Char :=
  if n = 10 then ['1', '0'] else [Char.ofNat (48 + n)]

/-- Output of process_unicode_chars for a single character, given the name
of the previous character of the same non-ASCII run. -/
def procChar (prev : Option UniName) (c : Char) : List Char :=
  match uniName c with
  | none => [c]
  | some (.supDigit d) => if isSupName prev then [d] else ['*', '*', d]
  | some .supOther => [c]
  | some (.subDigit d) => if isSubName prev then [d] else ['_', d]
  | some .subOther => [c]
  | some (.vulgar n m) => '(' :: smallDigits n ++ '/' :: smallDigits m ++ [')']
  | some .multSign => ['*']
  | some .divSign => ['/']
  | some .leSign => ['<', '=']
  | some .geSign => ['>', '=']
  | some .otherName => [c]

/-- Decoded digit of a superscript character, used to state the run rule. -/
def supVal (c : Char) : Char :=
  match uniName c with
  | some (.supDigit d) => d
  | _ => c

/-- Scanner equivalent of re.sub(NON_ASCII_CHAR_REGEX, process_unicode_chars, s):
process_unicode_chars is applied to each maximal run of non-ASCII characters
with its local prev_name state, which is equivalent to one scan that resets
the previous-name state at every ASCII character. -/
def subNonAsciiGo (prev : Option UniName) : List Char → List Char
  | [] => []
  | c :: rest =>
    if isAsciiChar c then c :: subNonAsciiGo none rest
    else procChar prev c ++ subNonAsciiGo (uniName c) rest

/-- Unicode substitution pass of cleanup_string. -/
def subNonAscii (l : List Char) : List Char := subNonAsciiGo none l

/-- Scanner equivalent of re.sub(UNSAFE_CHARACTERS_REGEX, a question mark, s):
each maximal run of non-whitelisted characters becomes a single sentinel.
The flag records whether the previous character was part of such a run. -/
def replaceUnsafeGo (inRun : Bool) : List Char → List Char
  | [] => []
  | c :: rest =>
    if allowedChar c then c :: replaceUnsafeGo false rest
    else if inRun then replaceUnsafeGo true rest
    else '?' :: replaceUnsafeGo true rest

/-- Sentinel-replacement pass of cleanup_string. -/
def replaceUnsafe (l : List Char) : List Char := replaceUnsafeGo false l

mutual

/-- Scanner for re.sub of the pattern nondigit dot nondigit replaced by
group1 space group2, with left-to-right non-overlapping matches. -/
def subA : List Char → List Char
  | [] => []
  | a :: t => subAStep a t

/-- One scanning position of subA: the character a is at the current
position and the list holds the characters after it.  On a match three
characters are consumed, otherwise the scanner advances one character. -/
def subAStep (a : Char) : List Char → List Char
  | '.' :: c :: rest =>
    if ¬a.isDigit ∧ ¬c.isDigit then a :: ' ' :: c :: subA rest
    else a :: subAStep '.' (c :: rest)
  | b :: t => a :: subAStep b t
  | [] => [a]

end

mutual

/-- Scanner for re.sub of the pattern optional-any-char dot nondigit replaced
by group1 space group2.  The optional leading group is greedy, so at each
position the three-character match is tried first and the two-character match
(with the dot at the current position) is tried on backtracking. -/
def subB : List Char → List Char
  | [] => []
  | a :: t => subBStep a t

/-- One scanning position of subB, with the greedy three-character match
tried first and the two-character match (the dot at the current position)
tried on backtracking. -/
def subBStep (a : Char) : List Char → List Char
  | '.' :: c :: rest =>
    if a ≠ '\n' ∧ ¬c.isDigit then a :: ' ' :: c :: subB rest
    else if a = '.' then ' ' :: '.' :: subB (c :: rest)
    else a :: subBStep '.' (c :: rest)
  | b :: t =>
    if a = '.' ∧ ¬b.isDigit then ' ' :: b :: subB t
    else a :: subBStep b t
  | [] => [a]

end

/-- Python str.replace of the literal substring lambda with lamda,
non-overlapping and left to right. -/
def lamRepl : List Char → List Char
  | 'l' :: 'a' :: 'm' :: 'b' :: 'd' :: 'a' :: rest => 'l' :: 'a' :: 'm' :: 'd' :: 'a' :: lamRepl rest
  | c :: rest => c :: lamRepl rest
  | [] => []

/-- Python str.replace of the literal substring Lambda with Lamda. -/
def capLamRepl : List Char → List Char
  | 'L' :: 'a' :: 'm' :: 'b' :: 'd' :: 'a' :: rest => 'L' :: 'a' :: 'm' :: 'd' :: 'a' :: capLamRepl rest
  | c :: rest => c :: capLamRepl rest
  | [] => []

/-- Python str.replace of a double underscore with a single space. -/
def dundRepl : List Char → List Char
  | '_' :: '_' :: rest => ' ' :: dundRepl rest
  | c :: rest => c :: dundRepl rest
  | [] => []

/-- Comparison-context characters blocking the equals upgrade. -/
def isCmpChar (c : Char) : Bool := c = '=' || c = '<' || c = '>'

/-- Lookbehind test of the equals-upgrade regex (no previous character, or a
previous character that is not one of the comparison characters). -/
def prevFree : Option Char → Bool
  | none => true
  | some c => !isCmpChar c

/-- Lookahead test of the equals-upgrade regex on the remaining input. -/
def headFree : List Char → Bool
  | [] => true
  | c :: _ => !isCmpChar c

/-- Scanner for re.sub upgrading every single equals sign (not adjacent to
another comparison character) to a double equals sign.  The lookarounds
examine the original string, so the scanner threads the previous input
character. -/
def upEq (prev : Option Char) : List Char → List Char
  | [] => []
  | c :: rest =>
    if c = '=' then
      if prevFree prev ∧ headFree rest then '=' :: '=' :: upEq (some '=') rest
      else '=' :: upEq (some '=') rest
    else c :: upEq (some c) rest

/-- The cleanup steps that run after the sentinel check: the two decimal-point
substitutions, the lambda renames, the double-underscore removal, and the
equals upgrade, in source order. -/
def cleanupPost (l : List Char) : List Char :=
  upEq none (dundRepl (capLamRepl (lamRepl (subB (subA l)))))

/-- Model of cleanup_string.  The error value models raising
UnsafeInputException; a string result models normal return. -/
def cleanup_string (s : String) (reject : Bool) : Except Unit String :=
  let l1 := replaceUnsafe (subNonAscii s.data)
  if reject then
    if '?' ∈ l1 then .error ()
    else .ok (String.mk (cleanupPost l1))
  else .ok (String.mk (cleanupPost (l1.map (fun c => if c = '?' then ' ' else c))))

/-! ## Expression trees, bindings and the binding table

SExpr models the sympy objects the parser can return: numeric literals,
symbols, unevaluated Add, Mul and Pow nodes, named function applications,
the Equal relation and generic relations, and the constants bound by parse
hints.  Binding models the values stored in the local and global
dictionaries. -/

inductive SExpr where
  | intL (n : Int)
  | ratL (p q : Int)
  | floatL (s : String)
  | symbol (s : String)
  | addE (args : List SExpr)
  | mulE (args : List SExpr)
  | powE (base exp : SExpr)
  | fnE (f : String) (args : List SExpr)
  | eqE (lhs rhs : SExpr)
  | relE (lhs rhs : SExpr) (op : String)
  | constE
  | constPi
  | constI

/-- Semantic tag of every callable stored in the dictionaries.  fnNode
builds an unevaluated named function application; the other tags model the
constructors and wrappers with special behaviour. -/
inductive FnSem where
  | symbolF
  | integerF
  | floatF
  | rationalF
  | mulF
  | addF
  | powF
  | relF
  | eqF
  | log10F
  | natlogF
  | sqrtF
  | fnNode (name : String)
  deriving DecidableEq, Repr

/-- Dictionary value: a callable or a plain sympy object. -/
inductive Binding where
  | bfunc (f : FnSem)
  | bconst (v : SExpr)

/-- Dictionaries are association lists from names to bindings. -/
abbrev Dict : Type := List (String × Binding)

/-- Name lookup in a dictionary. -/
def lookupD (d : Dict) (k : String) : Option Binding :=
  (List.find? (fun p => p.1 = k) d).map (fun p => p.2)

/-- Assignment of one key, replacing an existing entry in place or appending
a new one, as a Python dictionary does. -/
def setKey : Dict → String → Binding → Dict
  | [], k, v => [(k, v)]
  | (k0, v0) :: t, k, v => if k0 = k then (k, v) :: t else (k0, v0) :: setKey t k v

/-- Python dict.update: assign every pair of the second dictionary, in
order, into the first. -/
def updateAll (d : Dict) (kvs : Dict) : Dict :=
  kvs.foldl (fun a p => setKey a p.1 p.2) d

/-- The fixed global dictionary _GLOBAL_DICT, with every alias mapping to
the same semantic function as in the source (capitalised aliases, arc and a
prefixed inverse names, and so on).  The guarded factorial is commented out
in the source and therefore absent here too. -/
def globalDict : Dict :=
  [("Symbol", .bfunc .symbolF), ("Integer", .bfunc .integerF),
   ("Float", .bfunc .floatF), ("Rational", .bfunc .rationalF),
   ("Mul", .bfunc .mulF), ("Pow", .bfunc .powF), ("Add", .bfunc .addF),
   ("Rel", .bfunc .relF), ("Eq", .bfunc .eqF),
   ("Derivative", .bfunc (.fnNode "Derivative")), ("diff", .bfunc (.fnNode "Derivative")),
   ("sin", .bfunc (.fnNode "sin")), ("cos", .bfunc (.fnNode "cos")), ("tan", .bfunc (.fnNode "tan")),
   ("Sin", .bfunc (.fnNode "sin")), ("Cos", .bfunc (.fnNode "cos")), ("Tan", .bfunc (.fnNode "tan")),
   ("arcsin", .bfunc (.fnNode "asin")), ("arccos", .bfunc (.fnNode "acos")), ("arctan", .bfunc (.fnNode "atan")),
   ("asin", .bfunc (.fnNode "asin")), ("acos", .bfunc (.fnNode "acos")), ("atan", .bfunc (.fnNode "atan")),
   ("ArcSin", .bfunc (.fnNode "asin")), ("ArcCos", .bfunc (.fnNode "acos")), ("ArcTan", .bfunc (.fnNode "atan")),
   ("sinh", .bfunc (.fnNode "sinh")), ("cosh", .bfunc (.fnNode "cosh")), ("tanh", .bfunc (.fnNode "tanh")),
   ("arcsinh", .bfunc (.fnNode "asinh")), ("arccosh", .bfunc (.fnNode "acosh")), ("arctanh", .bfunc (.fnNode "atanh")),
   ("asinh", .bfunc (.fnNode "asinh")), ("acosh", .bfunc (.fnNode "acosh")), ("atanh", .bfunc (.fnNode "atanh")),
   ("cosec", .bfunc (.fnNode "csc")), ("sec", .bfunc (.fnNode "sec")), ("cot", .bfunc (.fnNode "cot")),
   ("Csc", .bfunc (.fnNode "csc")), ("Sec", .bfunc (.fnNode "sec")), ("Cot", .bfunc (.fnNode "cot")),
   ("arccosec", .bfunc (.fnNode "acsc")), ("arcsec", .bfunc (.fnNode "asec")), ("arccot", .bfunc (.fnNode "acot")),
   ("acsc", .bfunc (.fnNode "acsc")), ("asec", .bfunc (.fnNode "asec")), ("acot", .bfunc (.fnNode "acot")),
   ("ArcCsc", .bfunc (.fnNode "acsc")), ("ArcSec", .bfunc (.fnNode "asec")), ("ArcCot", .bfunc (.fnNode "acot")),
   ("cosech", .bfunc (.fnNode "csch")), ("sech", .bfunc (.fnNode "sech")), ("coth", .bfunc (.fnNode "coth")),
   ("exp", .bfunc (.fnNode "exp")), ("log", .bfunc .log10F), ("ln", .bfunc .natlogF),
   ("Exp", .bfunc (.fnNode "exp")), ("Log", .bfunc .log10F), ("Ln", .bfunc .natlogF),
   ("sqrt", .bfunc .sqrtF), ("abs", .bfunc (.fnNode "Abs")),
   ("Sqrt", .bfunc .sqrtF), ("Abs", .bfunc (.fnNode "Abs"))]

/-- The fixed hint table _PARSE_HINTS. -/
def parseHints : List (String × Dict) :=
  [("constant_pi", [("pi", .bconst .constPi)]),
   ("constant_e", [("e", .bconst .constE)]),
   ("imaginary_i", [("i", .bconst .constI)]),
   ("imaginary_j", [("j", .bconst .constI)]),
   ("natural_logarithm", [("log", .bfunc .natlogF), ("Log", .bfunc .natlogF)])]

/-- Bindings of one hint key, when the key is known. -/
def hintBindings (h : String) : Option Dict :=
  (parseHints.find? (fun p => p.1 = h)).map (fun p => p.2)

/-- The hint loop of parse_expr: for each hint in order, if the key is in
_PARSE_HINTS its bindings are written into the local dictionary with
dict.update, and unknown keys are skipped. -/
def mergeHints (d : Dict) (hs : List String) : Dict :=
  hs.foldl (fun a h => match hintBindings h with
    | some bs => updateAll a bs
    | none => a) d

/-- The dynamic type of the hints argument of parse_expr.  The source only
processes hints when isinstance(hints, (list, tuple)) holds, so a set or any
other value leaves the local dictionary untouched. -/
inductive HintsArg where
  | noneA
  | listA (hs : List String)
  | tupleA (hs : List String)
  | setA (hs : List String)
  | otherA
  deriving DecidableEq, Repr

/-- The local dictionary actually used by a parse_expr call after the hint
loop. -/
def effectiveDict (d : Dict) : HintsArg → Dict
  | .listA hs => mergeHints d hs
  | .tupleA hs => mergeHints d hs
  | _ => d

/-! ## Tokens and the tokenizer -/

/-- Tokens of the generic tokenizer, restricted to the kinds occurring in
this pipeline.  A qnameT token models a NAME or STRING token whose text is a
quoted single identifier, such as the argument the transformations build for
Symbol calls; keeping the quoting structural avoids string escapes. -/
inductive Tok where
  | numT (s : String)
  | nameT (s : String)
  | qnameT (s : String)
  | opT (s : String)
  deriving DecidableEq, Repr

/-- Starting character of a Python identifier. -/
def isNameStart (c : Char) : Bool := c.isAlpha || c = '_'

/-- Continuation character of a Python identifier. -/
def isNameChar (c : Char) : Bool := c.isAlpha || c.isDigit || c = '_'

/-- Model of the generic tokenizer on the sanitized character set: skips
spaces, reads integer and decimal number tokens, identifier tokens, and the
operator tokens used by the grammar, preferring two-character operators.
Any other character is a tokenize error. -/
def tokenizeAux : Nat → List Char → Except Unit (List Tok)
  | _, [] => .ok []
  | 0, _ :: _ => .error ()
  | fuel + 1, c :: rest =>
    if c = ' ' then tokenizeAux fuel rest
    else if c.isDigit then
      let ds := List.takeWhile Char.isDigit (c :: rest)
      let r1 := List.dropWhile Char.isDigit (c :: rest)
      match r1 with
      | '.' :: r2 =>
        let ds2 := List.takeWhile Char.isDigit r2
        let r3 := List.dropWhile Char.isDigit r2
        (tokenizeAux fuel r3).map (fun ts => Tok.numT (String.mk (ds ++ '.' :: ds2)) :: ts)
      | _ => (tokenizeAux fuel r1).map (fun ts => Tok.numT (String.mk ds) :: ts)
    else if c = '.' then
      match rest with
      | d :: _ =>
        if d.isDigit then
          let ds := List.takeWhile Char.isDigit rest
          let r1 := List.dropWhile Char.isDigit rest
          (tokenizeAux fuel r1).map (fun ts => Tok.numT (String.mk ('.' :: ds)) :: ts)
        else (tokenizeAux fuel rest).map (fun ts => Tok.opT "." :: ts)
      | [] => .ok [Tok.opT "."]
    else if isNameStart c then
      let ns := List.takeWhile isNameChar (c :: rest)
      let r1 := List.dropWhile isNameChar (c :: rest)
      (tokenizeAux fuel r1).map (fun ts => Tok.nameT (String.mk ns) :: ts)
    else
      match c, rest with
      | '*', '*' :: r => (tokenizeAux fuel r).map (fun ts => Tok.opT "**" :: ts)
      | '=', '=' :: r => (tokenizeAux fuel r).map (fun ts => Tok.opT "==" :: ts)
      | '<', '=' :: r => (tokenizeAux fuel r).map (fun ts => Tok.opT "<=" :: ts)
      | '>', '=' :: r => (tokenizeAux fuel r).map (fun ts => Tok.opT ">=" :: ts)
      | _, _ =>
        if c = '+' || c = '-' || c = '*' || c = '/' || c = '(' || c = ')'
           || c = ',' || c = '<' || c = '>' || c = '=' || c = '^' then
          (tokenizeAux fuel rest).map (fun ts => Tok.opT (String.mk [c]) :: ts)
        else .error ()

/-- Leading and trailing spaces removed, as str.strip does before
tokenizing. -/
def trimSpaces (l : List Char) : List Char :=
  ((l.dropWhile (fun c => c = ' ')).reverse.dropWhile (fun c => c = ' ')).reverse

/-- Tokenization of a sanitized string. -/
def tokenize (l : List Char) : Except Unit (List Tok) :=
  tokenizeAux (l.length + 1) (trimSpaces l)

/-! ## Token-stream transformations

The transformation tuple _TRANSFORMS applies, in order: the sympy builtins
auto_number and convert_xor, the custom _auto_symbol, the sympy builtin
split_symbols, the sympy builtin implicit_multiplication and the sympy
builtin function_exponentiation.  The builtins are modelled from their
sympy definitions; _auto_symbol and _split_symbols_implicit_precedence are
translated from the source file. -/

/-- Modelled sympy auto_number: every NUMBER token is wrapped in an Integer
call, or in a Float call on the quoted text when it contains a decimal
point or an exponent letter. -/
def autoNumber (toks : List Tok) : List Tok :=
  toks.flatMap (fun t =>
    match t with
    | .numT s =>
      if s.data.contains '.' || s.data.contains 'e' || s.data.contains 'E' then
        [Tok.nameT "Float", Tok.opT "(", Tok.qnameT s, Tok.opT ")"]
      else [Tok.nameT "Integer", Tok.opT "(", Tok.numT s, Tok.opT ")"]
    | t => [t])

/-- Name resolution used while transforming: the local dictionary shadows
the global one. -/
def resolveName (d : Dict) (n : String) : Option Binding :=
  match lookupD d n with
  | some b => some b
  | none => lookupD globalDict n

/-- Modelled sympy _token_callable: a name is callable when it is bound to
a function in the local or global dictionary (the constants bound by hints
are sympy objects, which are not callable). -/
def tokCallable (d : Dict) (n : String) : Bool :=
  match resolveName d n with
  | some (.bfunc _) => true
  | _ => false

/-- Translation of _auto_symbol: every NAME token that is in the local
dictionary, or bound in the global dictionary to a Basic instance, a type
or a callable, is left untouched; every other NAME token is rewritten to an
explicit Symbol call on its quoted text.  Every binding representable here
is a Basic instance or a callable, so bound names are always kept. -/
def autoSymbol (d : Dict) (toks : List Tok) : List Tok :=
  toks.flatMap (fun t =>
    match t with
    | .nameT n =>
      match lookupD d n with
      | some _ => [Tok.nameT n]
      | none =>
        match lookupD globalDict n with
        | some _ => [Tok.nameT n]
        | none => [Tok.nameT "Symbol", Tok.opT "(", Tok.qnameT n, Tok.opT ")"]
    | t => [t])

/-- Modelled sympy convert_xor: the caret operator becomes the power
operator. -/
def convertXor (toks : List Tok) : List Tok :=
  toks.map (fun t => if t = Tok.opT "^" then Tok.opT "**" else t)

/-- Greek letter names recognised by the splittability predicate through
its unicodedata lookup of GREEK SMALL LETTER followed by the token. -/
def greekNames : List String :=
  ["alpha", "beta", "gamma", "delta", "epsilon", "zeta", "eta", "theta",
   "iota", "kappa", "lamda", "mu", "nu", "xi", "omicron", "pi", "rho",
   "sigma", "tau", "upsilon", "phi", "chi", "psi", "omega"]

/-- Lower-case image of an ASCII character. -/
def lowerChar (c : Char) : Char :=
  if 'A' ≤ c ∧ c ≤ 'Z' then Char.ofNat (c.toNat + 32) else c

/-- Modelled sympy _token_splittable: a symbol name splits when it has no
underscore, is not the name of a Greek letter, and is longer than one
character. -/
def splittable (s : String) : Bool :=
  !s.data.contains '_' && !greekNames.contains (String.mk (s.data.map lowerChar))
    && s.length > 1

/-- Text a split loop extracts from the token naming the symbol: the quoted
content for a quoted token, and the text without its first and last
character otherwise, exactly as the slice in the source does. -/
def splitText : Tok → Option String
  | .qnameT s => some s
  | .nameT s => some (String.mk ((s.data.drop 1).dropLast))
  | _ => none

/-- Per-character body of the split loops of split_symbols and
_split_symbols_implicit_precedence, acting on the accumulated result list:
a character bound in a dictionary replaces the pending Symbol call opener
by its plain name followed by a fresh opener, and any other character is
emitted as a quoted argument, closed, and followed by a fresh opener. -/
def splitLoop (d : Dict) (acc : List Tok) (chars : List Char) : List Tok :=
  chars.foldl (fun a ch =>
    let cs := String.mk [ch]
    if (lookupD d cs).isSome || (lookupD globalDict cs).isSome then
      a.dropLast.dropLast ++ [Tok.nameT cs, Tok.nameT "Symbol", Tok.opT "("]
    else a ++ [Tok.qnameT cs, Tok.opT ")", Tok.nameT "Symbol", Tok.opT "("]) acc

/-- Shared walk of split_symbols (custom = false, the sympy builtin used by
_TRANSFORMS) and _split_symbols_implicit_precedence (custom = true, the
source function, which additionally wraps each split symbol in brackets).
The boolean state mirrors the split and split_previous flags. -/
def splitSymbolsGo (custom : Bool) (d : Dict) (acc : List Tok) :
    List Tok → Bool → Bool → List Tok
  | [], _, _ => acc
  | tok :: rest, split, splitPrev =>
    if splitPrev then splitSymbolsGo custom d acc rest split false
    else if tok = Tok.nameT "Symbol" then
      splitSymbolsGo custom d (acc ++ [tok]) rest true false
    else
      match splitText tok, split with
      | some sym, true =>
        if splittable sym then
          let acc1 := if custom then
              acc.dropLast.dropLast ++ [Tok.opT "("] ++ acc.drop (acc.length - 2)
            else acc
          let acc2 := (splitLoop d acc1 sym.data).dropLast.dropLast
          let acc3 := if custom then acc2 ++ [Tok.opT ")"] else acc2
          splitSymbolsGo custom d acc3 rest false true
        else splitSymbolsGo custom d (acc ++ [tok]) rest false false
      | _, _ => splitSymbolsGo custom d (acc ++ [tok]) rest split false

/-- The sympy builtin split_symbols, as used by _TRANSFORMS. -/
def splitSymbols (d : Dict) (toks : List Tok) : List Tok :=
  splitSymbolsGo false d [] toks false false

/-- The source function _split_symbols_implicit_precedence, which groups the
split characters inside brackets so that implicit multiplication binds more
tightly; it is defined by the source but not included in _TRANSFORMS. -/
def splitSymbolsImplicitPrecedence (d : Dict) (toks : List Tok) : List Tok :=
  splitSymbolsGo true d [] toks false false

/-! ### Implicit multiplication -/

/-- Grouped tokens used by the implicit-multiplication steps: a plain
token, a parenthesis group holding its processed tokens including the outer
brackets, or an applied function holding the function token and the tokens
of its argument group. -/
inductive GTok where
  | plain (t : Tok)
  | pgroup (ts : List Tok)
  | appfn (f : Tok) (args : List Tok)
  deriving DecidableEq, Repr

/-- Extraction of one balanced parenthesis group: returns the tokens before
the matching close bracket and the remainder after it. -/
def extractGroup : Nat → List Tok → List Tok → Option (List Tok × List Tok)
  | _, _, [] => none
  | depth, acc, t :: rest =>
    if t = Tok.opT "(" then extractGroup (depth + 1) (acc ++ [t]) rest
    else if t = Tok.opT ")" then
      if depth = 0 then some (acc, rest)
      else extractGroup (depth - 1) (acc ++ [t]) rest
    else extractGroup depth (acc ++ [t]) rest

/-- Modelled sympy _group_parentheses: top-level parenthesis groups become
single grouped items whose inner tokens are recursively processed by the
full implicit-multiplication transformation. -/
def groupParens (process : List Tok → Option (List Tok)) :
    Nat → List Tok → Option (List GTok)
  | _, [] => some []
  | 0, _ :: _ => none
  | fuel + 1, t :: rest =>
    if t = Tok.opT "(" then
      match extractGroup 0 [] rest with
      | none => none
      | some (inner, rem) =>
        match process inner with
        | none => none
        | some innerP =>
          (groupParens process fuel rem).map
            (fun g => GTok.pgroup (Tok.opT "(" :: innerP ++ [Tok.opT ")"]) :: g)
    else (groupParens process fuel rest).map (fun g => GTok.plain t :: g)

/-- Modelled sympy _apply_functions: a NAME bound to a callable directly
followed by a parenthesis group becomes an applied-function item. -/
def applyFunctions (d : Dict) : List GTok → List GTok
  | .plain (.nameT f) :: .pgroup g :: rest =>
    if tokCallable d f then .appfn (.nameT f) g :: applyFunctions d rest
    else .plain (.nameT f) :: applyFunctions d (.pgroup g :: rest)
  | x :: rest => x :: applyFunctions d rest
  | [] => []

/-- Classification helpers on grouped tokens. -/
def isAppFn : GTok → Bool
  | .appfn _ _ => true
  | _ => false

/-- Grouped token that is a literal open bracket. -/
def isOpenTok : GTok → Bool
  | .plain (.opT "(") => true
  | _ => false

/-- Grouped token that is a literal close bracket. -/
def isCloseTok : GTok → Bool
  | .plain (.opT ")") => true
  | _ => false

/-- Grouped token of NAME kind (a plain or quoted name). -/
def isNameTok : GTok → Bool
  | .plain (.nameT _) => true
  | .plain (.qnameT _) => true
  | _ => false

/-- Grouped token that is a NAME not bound to a callable; quoted text never
resolves to a callable because its quote characters cannot occur in a
dictionary key. -/
def isNameNC (d : Dict) : GTok → Bool
  | .plain (.nameT n) => !tokCallable d n
  | .plain (.qnameT _) => true
  | _ => false

/-- Modelled sympy _implicit_multiplication: a multiplication operator is
inserted between the token pairs enumerated in the sympy source. -/
def needStar (d : Dict) (a b : GTok) : Bool :=
  (isAppFn a && isAppFn b) ||
  (isAppFn a && isOpenTok b) ||
  (isCloseTok a && isAppFn b) ||
  (isCloseTok a && isNameTok b) ||
  (isNameNC d a && isOpenTok b) ||
  (isNameNC d a && isNameNC d b) ||
  (isNameNC d a && (isAppFn b || isNameTok b))

/-- Walk inserting the implicit multiplication operators pairwise. -/
def insertStars (d : Dict) : List GTok → List GTok
  | a :: b :: rest =>
    if needStar d a b then a :: .plain (.opT "*") :: insertStars d (b :: rest)
    else a :: insertStars d (b :: rest)
  | l => l

/-- Modelled sympy _flatten on grouped tokens. -/
def flattenG (gs : List GTok) : List Tok :=
  gs.flatMap (fun g =>
    match g with
    | .plain t => [t]
    | .pgroup ts => ts
    | .appfn f args => f :: args)

/-- Modelled sympy implicit_multiplication: group the brackets (recursively
processing their contents), apply functions, insert the multiplication
operators, and flatten back to a token list.  The fuel bounds the bracket
nesting depth and is always instantiated above the token-list length. -/
def implicitMul (d : Dict) : Nat → List Tok → Option (List Tok)
  | 0, _ => none
  | fuel + 1, toks =>
    match groupParens (implicitMul d fuel) (toks.length + 1) toks with
    | none => none
    | some g => some (flattenG (insertStars d (applyFunctions d g)))

/-- Modelled sympy function_exponentiation: when a callable name is
directly followed by the power operator, the exponent tokens are moved
after the argument group of the function, so that a power of a function
name applies to the whole application. -/
def funcExp (d : Dict) : Nat → List Tok → List Tok
  | 0, toks => toks
  | fuel + 1, toks =>
    match toks with
    | .nameT f :: .opT "**" :: rest =>
      if tokCallable d f then
        let expToks := rest.takeWhile (fun t => t ≠ Tok.opT "(")
        let rest1 := rest.dropWhile (fun t => t ≠ Tok.opT "(")
        match rest1 with
        | .opT "(" :: rest2 =>
          match extractGroup 0 [] rest2 with
          | some (inner, rem) =>
            .nameT f :: .opT "(" :: inner ++ [Tok.opT ")", Tok.opT "**"] ++ expToks
              ++ funcExp d fuel rem
          | none => toks
        | _ => toks
      else .nameT f :: .opT "**" :: funcExp d fuel rest
    | t :: rest => t :: funcExp d fuel rest
    | [] => []

/-- The transformation pipeline of _TRANSFORMS, with a flag selecting the
split transformation: false is the source configuration using the sympy
builtin split_symbols, true replaces it by the source function
_split_symbols_implicit_precedence. -/
def applyTransforms (d : Dict) (custom : Bool) (toks : List Tok) :
    Option (List Tok) :=
  let t1 := autoNumber toks
  let t2 := autoSymbol d t1
  let t3 := convertXor t2
  let t4 := if custom then splitSymbolsImplicitPrecedence d t3 else splitSymbols d t3
  match implicitMul d (t4.length + 1) t4 with
  | none => none
  | some t5 => some (funcExp d (t5.length + 1) t5)

/-! ## The Python expression tree and its parser

PyExpr models the abstract syntax tree that ast.parse builds from the
transformed token stream: number, string and name atoms, unary and binary
operators, comparison chains, and calls.  Calls carry the flag recording
whether the evaluate-false keyword has been attached; the parser always
creates calls without it.  callC models a call whose function part is not a
plain name. -/

inductive CmpOp where
  | eqC
  | ltC
  | leC
  | gtC
  | geC
  deriving DecidableEq, Repr

/-- Binary operators of the grammar. -/
inductive BinOp where
  | addB
  | subB
  | mulB
  | divB
  | powB
  deriving DecidableEq, Repr

/-- Unary operators of the grammar. -/
inductive UnOp where
  | negU
  | posU
  deriving DecidableEq, Repr

/-- Python abstract syntax trees reachable from the token stream. -/
inductive PyExpr where
  | num (s : String)
  | strE (s : String)
  | nameE (s : String)
  | unE (op : UnOp) (e : PyExpr)
  | binE (op : BinOp) (l r : PyExpr)
  | cmpE (l : PyExpr) (rest : List (CmpOp × PyExpr))
  | callE (f : String) (args : List PyExpr) (ef : Bool)
  | callC (f : PyExpr) (args : List PyExpr)

/-- Comparison operator denoted by a token, if any. -/
def cmpOfTok : Tok → Option CmpOp
  | .opT "==" => some .eqC
  | .opT "<" => some .ltC
  | .opT "<=" => some .leC
  | .opT ">" => some .gtC
  | .opT ">=" => some .geC
  | _ => none

/-- Call node built by a trailer: a call on a plain name keeps the name, any
other callee becomes a complex call. -/
def mkCallNode (f : PyExpr) (args : List PyExpr) : PyExpr :=
  match f with
  | .nameE n => .callE n args false
  | f => .callC f args

mutual

/-- Comparison level of the expression grammar. -/
def parseCmp : Nat → List Tok → Option (PyExpr × List Tok)
  | 0, _ => none
  | fuel + 1, toks => do
    let (l, r) ← parseArith fuel toks
    parseCmpTail fuel l [] r

/-- Collects the chain of comparison operators and operands. -/
def parseCmpTail (fuel : Nat) (l : PyExpr) (acc : List (CmpOp × PyExpr)) :
    List Tok → Option (PyExpr × List Tok)
  | [] => some (if acc.isEmpty then l else .cmpE l acc, [])
  | t :: rest =>
    match fuel, cmpOfTok t with
    | fuel + 1, some op => do
      let (r, toks2) ← parseArith fuel rest
      parseCmpTail fuel l (acc ++ [(op, r)]) toks2
    | _, _ => some (if acc.isEmpty then l else .cmpE l acc, t :: rest)

/-- Additive level. -/
def parseArith : Nat → List Tok → Option (PyExpr × List Tok)
  | 0, _ => none
  | fuel + 1, toks => do
    let (l, r) ← parseTerm fuel toks
    parseArithLoop fuel l r

/-- Left-associative chain of additions and subtractions. -/
def parseArithLoop (fuel : Nat) (l : PyExpr) :
    List Tok → Option (PyExpr × List Tok)
  | .opT "+" :: rest =>
    match fuel with
    | 0 => none
    | fuel + 1 => do
      let (r, toks2) ← parseTerm fuel rest
      parseArithLoop fuel (.binE .addB l r) toks2
  | .opT "-" :: rest =>
    match fuel with
    | 0 => none
    | fuel + 1 => do
      let (r, toks2) ← parseTerm fuel rest
      parseArithLoop fuel (.binE .subB l r) toks2
  | toks => some (l, toks)

/-- Multiplicative level. -/
def parseTerm : Nat → List Tok → Option (PyExpr × List Tok)
  | 0, _ => none
  | fuel + 1, toks => do
    let (l, r) ← parseUnary fuel toks
    parseTermLoop fuel l r

/-- Left-associative chain of multiplications and divisions. -/
def parseTermLoop (fuel : Nat) (l : PyExpr) :
    List Tok → Option (PyExpr × List Tok)
  | .opT "*" :: rest =>
    match fuel with
    | 0 => none
    | fuel + 1 => do
      let (r, toks2) ← parseUnary fuel rest
      parseTermLoop fuel (.binE .mulB l r) toks2
  | .opT "/" :: rest =>
    match fuel with
    | 0 => none
    | fuel + 1 => do
      let (r, toks2) ← parseUnary fuel rest
      parseTermLoop fuel (.binE .divB l r) toks2
  | toks => some (l, toks)

/-- Unary level, with the power level below it; the exponent of a power is
again a unary expression, as in the Python grammar. -/
def parseUnary : Nat → List Tok → Option (PyExpr × List Tok)
  | 0, _ => none
  | fuel + 1, .opT "-" :: rest => do
    let (e, toks2) ← parseUnary fuel rest
    some (.unE .negU e, toks2)
  | fuel + 1, .opT "+" :: rest => do
    let (e, toks2) ← parseUnary fuel rest
    some (.unE .posU e, toks2)
  | fuel + 1, toks => parsePower fuel toks

/-- Power level. -/
def parsePower : Nat → List Tok → Option (PyExpr × List Tok)
  | 0, _ => none
  | fuel + 1, toks => do
    let (b, r) ← parseTrailer fuel toks
    match r with
    | .opT "**" :: r2 => do
      let (e, r3) ← parseUnary fuel r2
      some (.binE .powB b e, r3)
    | _ => some (b, r)

/-- Primary with call trailers. -/
def parseTrailer : Nat → List Tok → Option (PyExpr × List Tok)
  | 0, _ => none
  | fuel + 1, toks => do
    let (a, r) ← parseAtom fuel toks
    parseTrailerLoop fuel a r

/-- Chain of call trailers after a primary. -/
def parseTrailerLoop (fuel : Nat) (a : PyExpr) :
    List Tok → Option (PyExpr × List Tok)
  | .opT "(" :: .opT ")" :: rest =>
    match fuel with
    | 0 => none
    | fuel + 1 => parseTrailerLoop fuel (mkCallNode a []) rest
  | .opT "(" :: rest =>
    match fuel with
    | 0 => none
    | fuel + 1 => do
      let (args, toks2) ← parseArgs fuel rest
      parseTrailerLoop fuel (mkCallNode a args) toks2
  | toks => some (a, toks)

/-- Nonempty call argument list followed by the closing bracket. -/
def parseArgs : Nat → List Tok → Option (List PyExpr × List Tok)
  | 0, _ => none
  | fuel + 1, toks => do
    let (e, r) ← parseCmp fuel toks
    match r with
    | .opT ")" :: rest => some ([e], rest)
    | .opT "," :: rest => do
      let (es, toks2) ← parseArgs fuel rest
      some (e :: es, toks2)
    | _ => none

/-- Atoms: numbers, quoted strings, names and bracketed expressions. -/
def parseAtom : Nat → List Tok → Option (PyExpr × List Tok)
  | 0, _ => none
  | _ + 1, .numT s :: rest => some (.num s, rest)
  | _ + 1, .qnameT s :: rest => some (.strE s, rest)
  | _ + 1, .nameT s :: rest => some (.nameE s, rest)
  | fuel + 1, .opT "(" :: rest => do
    let (e, r) ← parseCmp fuel rest
    match r with
    | .opT ")" :: rest2 => some (e, rest2)
    | _ => none
  | _, _ => none

end

/-- Parse of a complete expression: the whole token list must be consumed,
anything else is a syntax error. -/
def parseTokens (toks : List Tok) : Option PyExpr :=
  match parseCmp (toks.length * 10 + 10) toks with
  | some (e, []) => some e
  | _ => none

/-! ## The evaluate-false rewrite

The source extends the sympy EvaluateFalseTransformer: visit_BinOp is
inherited from sympy and lowers every arithmetic binary operator to a call
of the corresponding sympy constructor carrying the evaluate-false keyword,
denesting Add and Mul argument lists; the overridden visit_Call attaches
the keyword to every call whose function name is not in the fixed ignore
list; the overridden visit_Compare rejects chained comparisons with a
TypeError and lowers single comparisons to Eq or Rel calls carrying the
keyword.  Unary operators have no visitor and are left untouched. -/

/-- The fixed list _ignore_functions of visit_Call. -/
def ignoreFns : List String := ["Integer", "Float", "Symbol", "factorial", "sqrt", "Sqrt"]

mutual

/-- Modelled sympy flatten: denests arguments that are calls of the same
constructor name. -/
def flattenArgs (f : String) : List PyExpr → List PyExpr
  | [] => []
  | a :: rest => flattenOne f a ++ flattenArgs f rest

/-- Flattening of one argument. -/
def flattenOne (f : String) : PyExpr → List PyExpr
  | .callE g gargs ef => if g = f then flattenArgs f gargs else [.callE g gargs ef]
  | e => [e]

end

/-- Argument list of a lowered binary operator: Add and Mul argument lists
are denested, Pow argument lists are not. -/
def binArgs (f : String) (args : List PyExpr) : List PyExpr :=
  if f = "Add" || f = "Mul" then flattenArgs f args else args

/-- The literal minus-one operand the transformer fabricates. -/
def minusOne : PyExpr := .unE .negU (.num "1")

mutual

/-- The evaluate-false rewrite of the extended transformer.  The error
value models the TypeError raised on chained comparisons and the
AttributeError raised when a call has no plain function name. -/
def efT : PyExpr → Except Unit PyExpr
  | .num s => .ok (.num s)
  | .strE s => .ok (.strE s)
  | .nameE s => .ok (.nameE s)
  | .unE op e => (efT e).map (fun e2 => .unE op e2)
  | .binE op l r => do
    let r2 ← efT r
    let l2 ← efT l
    match op with
    | .addB => .ok (.callE "Add" (binArgs "Add" [l2, r2]) true)
    | .subB =>
      .ok (.callE "Add" (binArgs "Add" [l2, .callE "Mul" [minusOne, r2] true]) true)
    | .mulB => .ok (.callE "Mul" (binArgs "Mul" [l2, r2]) true)
    | .divB =>
      .ok (.callE "Mul" (binArgs "Mul" [l2, .callE "Pow" [r2, minusOne] true]) true)
    | .powB => .ok (.callE "Pow" [l2, r2] true)
  | .cmpE l rest =>
    if rest.length > 1 then .error ()
    else do
      let l2 ← efT l
      match rest with
      | [(op, r)] => do
        let r2 ← efT r
        match op with
        | .eqC => .ok (.callE "Eq" [l2, r2] true)
        | .ltC => .ok (.callE "Rel" [l2, r2, .strE "<"] true)
        | .leC => .ok (.callE "Rel" [l2, r2, .strE "<="] true)
        | .gtC => .ok (.callE "Rel" [l2, r2, .strE ">"] true)
        | .geC => .ok (.callE "Rel" [l2, r2, .strE ">="] true)
      | _ => .ok (.cmpE l2 [])
  | .callE f args ef => do
    let args2 ← efTList args
    if ignoreFns.contains f then .ok (.callE f args2 ef)
    else .ok (.callE f args2 true)
  | .callC f args => do
    let _ ← efT f
    let _ ← efTList args
    .error ()

/-- The rewrite on argument lists. -/
def efTList : List PyExpr → Except Unit (List PyExpr)
  | [] => .ok []
  | e :: rest => do
    let e2 ← efT e
    let rest2 ← efTList rest
    .ok (e2 :: rest2)

end

/-! ## Evaluation of the rewritten tree

eval_expr compiles and evaluates the rewritten tree against the local and
global dictionaries.  Values are python-level: plain numbers, strings,
callables and sympy objects.  Construction with the evaluate-false keyword
builds the corresponding unevaluated SExpr node.  Construction without the
keyword auto-evaluates in sympy and is modelled only where the pipeline can
reach it, namely for the constructors of the ignore list; the remaining
cases return the notModelled error, and the suppression theorem for claim
two shows they are unreachable from transformer output. -/

inductive Val where
  | vnum (n : Int)
  | vfloat (s : String)
  | vstr (s : String)
  | vexpr (e : SExpr)
  | vfn (f : FnSem)

/-- Evaluation errors: TypeError and AttributeError are caught by
parse_expr, NameError is not, and notModelled marks unreachable
auto-evaluating constructions. -/
inductive EvalErr where
  | typeErr
  | attrErr
  | nameErr
  | notModelled
  deriving DecidableEq, Repr

/-- Modelled sympify of a call argument: python numbers become Integer
literals, floats become Float literals, sympy objects pass through, and
strings and callables are rejected here because no reachable constructor
consumes them generically. -/
def coerceVal : Val → Except EvalErr SExpr
  | .vnum n => .ok (.intL n)
  | .vfloat s => .ok (.floatL s)
  | .vexpr e => .ok e
  | .vstr _ => .error .typeErr
  | .vfn _ => .error .typeErr

/-- Modelled sympy negation of a sympy object: the default __neg__ builds
Mul applied to minus one and the operand with evaluation enabled, which
negates an explicit integer or rational literal, folds into the leading
integer coefficient of an evaluated Mul (dropping a resulting unit
coefficient), and otherwise prepends the minus-one factor. -/
def symNeg : SExpr → SExpr
  | .intL n => .intL (-n)
  | .ratL p q => .ratL (-p) q
  | .mulE (.intL n :: rest) =>
    if n = -1 then
      match rest with
      | [x] => x
      | _ => .mulE rest
    else .mulE (.intL (-n) :: rest)
  | e => .mulE [.intL (-1), e]

/-- Digits of a numeric token as an integer (tokens carry no sign). -/
def numOfString (s : String) : Int :=
  Int.ofNat (s.data.foldl (fun a c => a * 10 + (c.toNat - 48)) 0)

/-- Application of a callable.  The flag records whether the call carries
the evaluate-false keyword.  Constructors of the ignore list reject the
keyword with a TypeError, as their sympy counterparts do. -/
def applySem (sem : FnSem) (vs : List Val) (ef : Bool) : Except EvalErr Val :=
  match sem, ef with
  | .symbolF, false =>
    match vs with
    | [.vstr s] => .ok (.vexpr (.symbol s))
    | _ => .error .typeErr
  | .symbolF, true => .error .typeErr
  | .integerF, false =>
    match vs with
    | [.vnum n] => .ok (.vexpr (.intL n))
    | _ => .error .typeErr
  | .integerF, true => .error .typeErr
  | .floatF, false =>
    match vs with
    | [.vstr s] => .ok (.vexpr (.floatL s))
    | [.vfloat s] => .ok (.vexpr (.floatL s))
    | _ => .error .typeErr
  | .floatF, true => .error .typeErr
  | .rationalF, false =>
    match vs with
    | [.vnum p, .vnum q] => .ok (.vexpr (.ratL p q))
    | _ => .error .typeErr
  | .rationalF, true => .error .typeErr
  | .sqrtF, false =>
    match vs with
    | [v] => (coerceVal v).map (fun e => .vexpr (.powE e (.ratL 1 2)))
    | _ => .error .typeErr
  | .sqrtF, true => .error .typeErr
  | .mulF, true => (vs.mapM coerceVal).map (fun es => .vexpr (.mulE es))
  | .addF, true => (vs.mapM coerceVal).map (fun es => .vexpr (.addE es))
  | .powF, true =>
    match vs with
    | [b, e] => do
      let b2 ← coerceVal b
      let e2 ← coerceVal e
      .ok (.vexpr (.powE b2 e2))
    | _ => .error .typeErr
  | .eqF, true =>
    match vs with
    | [l, r] => do
      let l2 ← coerceVal l
      let r2 ← coerceVal r
      .ok (.vexpr (.eqE l2 r2))
    | _ => .error .typeErr
  | .relF, true =>
    match vs with
    | [l, r, .vstr op] => do
      let l2 ← coerceVal l
      let r2 ← coerceVal r
      .ok (.vexpr (.relE l2 r2 op))
    | _ => .error .typeErr
  | .log10F, true =>
    match vs with
    | [a] => (coerceVal a).map (fun e => .vexpr (.fnE "log" [e, .intL 10]))
    | [a, b] => do
      let a2 ← coerceVal a
      let b2 ← coerceVal b
      .ok (.vexpr (.fnE "log" [a2, b2]))
    | _ => .error .typeErr
  | .natlogF, true =>
    match vs with
    | [a] => (coerceVal a).map (fun e => .vexpr (.fnE "log" [e]))
    | [a, b] => do
      let a2 ← coerceVal a
      let b2 ← coerceVal b
      .ok (.vexpr (.fnE "log" [a2, b2]))
    | _ => .error .typeErr
  | .fnNode name, true => (vs.mapM coerceVal).map (fun es => .vexpr (.fnE name es))
  | _, false => .error .notModelled

mutual

/-- Evaluation of the rewritten tree under the dictionaries.  Binary
operators, comparisons and complex calls never survive the rewrite, so
their evaluation (which would auto-simplify) is not modelled. -/
def evalE (d : Dict) : PyExpr → Except EvalErr Val
  | .num s =>
    if s.data.contains '.' then .ok (.vfloat s) else .ok (.vnum (numOfString s))
  | .strE s => .ok (.vstr s)
  | .nameE n =>
    match resolveName d n with
    | some (.bfunc f) => .ok (.vfn f)
    | some (.bconst v) => .ok (.vexpr v)
    | none => .error .nameErr
  | .unE .posU e => evalE d e
  | .unE .negU e => do
    let v ← evalE d e
    match v with
    | .vnum n => .ok (.vnum (-n))
    | .vfloat s => .ok (.vfloat (String.mk ('-' :: s.data)))
    | .vexpr x => .ok (.vexpr (symNeg x))
    | _ => .error .typeErr
  | .binE _ _ _ => .error .notModelled
  | .cmpE _ _ => .error .notModelled
  | .callE f args ef => do
    match resolveName d f with
    | some (.bfunc sem) => do
      let vs ← evalList d args
      applySem sem vs ef
    | some (.bconst _) => .error .typeErr
    | none => .error .nameErr
  | .callC _ _ => .error .notModelled

/-- Evaluation of an argument list. -/
def evalList (d : Dict) : List PyExpr → Except EvalErr (List Val)
  | [] => .ok []
  | e :: rest => do
    let v ← evalE d e
    let vs ← evalList d rest
    .ok (v :: vs)

end

/-! ## The parse_expr entry point -/

/-- Result of a parse_expr call: the explicit None returned for empty
input, a value, the ParsingException raised for the caught error kinds, or
an uncaught internal error. -/
inductive PRes where
  | nullR
  | valR (v : Val)
  | parseErr
  | internalErr

mutual

/-- The defensive rewrite separating a digit from a directly following long
suffix letter. -/
def sub2L : List Char → List Char
  | [] => []
  | a :: t => sub2LStep a t

/-- One scanning position of the long-suffix rewrite. -/
def sub2LStep (a : Char) : List Char → List Char
  | [] => [a]
  | b :: t =>
    if a.isDigit ∧ (b = 'l' ∨ b = 'L') then a :: ' ' :: b :: sub2L t
    else a :: sub2LStep b t

end

/-- Translation of parse_expr on an already merged local dictionary: the
empty check, the long-suffix rewrite, tokenizing, the transformation
pipeline, tree building, the evaluate-false rewrite and evaluation, with
tokenize errors, syntax errors, type errors and attribute errors classified
as the ParsingException. -/
def parseCore (custom : Bool) (s : String) (d : Dict) : PRes :=
  if s.isEmpty then .nullR
  else
    match tokenize (sub2L s.data) with
    | .error _ => .parseErr
    | .ok toks =>
      match applyTransforms d custom toks with
      | none => .parseErr
      | some toks2 =>
        match parseTokens toks2 with
        | none => .parseErr
        | some ast =>
          match efT ast with
          | .error _ => .parseErr
          | .ok ast2 =>
            match evalE d ast2 with
            | .ok v => .valR v
            | .error .typeErr => .parseErr
            | .error .attrErr => .parseErr
            | .error _ => .internalErr

/-- Model of parse_expr with the hint handling of the source: hint
bindings are merged into the local dictionary only when the hints argument
is a list or a tuple. -/
def parse_expr (s : String) (d : Dict) (hints : HintsArg) : PRes :=
  parseCore false s (effectiveDict d hints)

/-- The same entry point with _split_symbols_implicit_precedence in place
of the builtin split_symbols, for comparison. -/
def parse_expr_customsplit (s : String) (d : Dict) (hints : HintsArg) : PRes :=
  parseCore true s (effectiveDict d hints)

/-- Resulting expression tree of a parse, when the parse returns a sympy
object. -/
def parseTree (s : String) (d : Dict) (hints : HintsArg) : Option SExpr :=
  match parse_expr s d hints with
  | .valR (.vexpr e) => some e
  | _ => none

/-- Left-biased combination of optional bindings. -/
def orD (a b : Option Binding) : Option Binding :=
  match a with
  | some v => some v
  | none => b

/-! ### Heap model for the in-place hint update

parse_expr receives the local dictionary by reference and writes the hint
bindings into it with dict.update.  The store models the heap: the caller
holds an index, and the hint loop of parse_expr replaces the dictionary at
that index by its updated value, without touching any other index. -/

abbrev Store : Type := List Dict

/-- Effect of the hint loop of parse_expr (source lines 429 to 433) on the
heap: when the hints argument is a list or tuple, the dictionary the caller
passed is updated in place through its reference. -/
def hintLoopEffect (st : Store) (r : Nat) (hints : HintsArg) : Store :=
  match hints with
  | .listA hs =>
    match st[r]? with
    | some d => st.set r (mergeHints d hs)
    | none => st
  | .tupleA hs =>
    match st[r]? with
    | some d => st.set r (mergeHints d hs)
    | none => st
  | _ => st

/-- Boolean prefix test on character lists. -/
def leadsWith : List Char → List Char → Bool
  | [], _ => true
  | _ :: _, [] => false
  | a :: as, b :: bs => a = b && leadsWith as bs

/-- Boolean substring test on character lists. -/
def hasSub (p : List Char) : List Char → Bool
  | [] => p.isEmpty
  | c :: t => leadsWith p (c :: t) || hasSub p t

/-- The lower case lambda keyword pattern. -/
def lamPat : List Char := ['l', 'a', 'm', 'b', 'd', 'a']

/-- The capitalised lambda keyword pattern. -/
def capLamPat : List Char := ['L', 'a', 'm', 'b', 'd', 'a']

/-- The double underscore pattern. -/
def dundPat : List Char := ['_', '_']

/-! ## Evaluation suppression of the rewritten tree -/

mutual

/-- Suppression invariant on rewritten trees: no binary operator, no
comparison and no complex call remains, and every call either carries the
evaluate-false keyword or names a constructor of the ignore list. -/
def suppOk : PyExpr → Bool
  | .num _ => true
  | .strE _ => true
  | .nameE _ => true
  | .unE _ e => suppOk e
  | .binE _ _ _ => false
  | .cmpE l rest => rest.isEmpty && suppOk l
  | .callE f args ef => (ef || ignoreFns.contains f) && suppOkList args
  | .callC _ _ => false

/-- The invariant on argument lists. -/
def suppOkList : List PyExpr → Bool
  | [] => true
  | e :: rest => suppOk e && suppOkList rest

end

theorem suppOkList_append (l1 l2 : List PyExpr) :
    suppOkList (l1 ++ l2) = (suppOkList l1 && suppOkList l2) := by
  induction l1 with
  | nil => simp [suppOkList]
  | cons a t ih => simp [suppOkList, ih, Bool.and_assoc]

mutual

/-- Flattening preserves the suppression invariant. -/
def flatSupp (f : String) : (l : List PyExpr) → suppOkList l = true →
    suppOkList (flattenArgs f l) = true
  | [], h => h
  | a :: rest, h => by
    have ha : suppOk a = true ∧ suppOkList rest = true := by
      simpa [suppOkList, Bool.and_eq_true] using h
    have h1 := flatOneSupp f a ha.1
    have h2 := flatSupp f rest ha.2
    simp only [flattenArgs, suppOkList_append, h1, h2, Bool.and_self]

/-- Flattening one argument preserves the suppression invariant. -/
def flatOneSupp (f : String) : (e : PyExpr) → suppOk e = true →
    suppOkList (flattenOne f e) = true
  | .callE g gargs ef, h => by
    by_cases hg : g = f
    · subst hg
      have hargs : suppOkList gargs = true := by
        simp only [suppOk, Bool.and_eq_true] at h
        exact h.2
      simpa [flattenOne] using flatSupp g gargs hargs
    · simp [flattenOne, hg, suppOkList, h]
  | .num s, h => by simp [flattenOne, suppOkList, h]
  | .strE s, h => by simp [flattenOne, suppOkList, h]
  | .nameE s, h => by simp [flattenOne, suppOkList, h]
  | .unE op e, h => by simp [flattenOne, suppOkList, h]
  | .binE op l r, h => by simp [suppOk] at h
  | .cmpE l rest, h => by simp [flattenOne, suppOkList, h]
  | .callC f2 args, h => by simp [suppOk] at h

end

mutual

/-- Every successful evaluate-false rewrite satisfies the suppression
invariant. -/
def efSupp : (e e2 : PyExpr) → efT e = .ok e2 → suppOk e2 = true
  | .num s, e2, h => by
    simp only [efT, Except.ok.injEq] at h
    subst h; rfl
  | .strE s, e2, h => by
    simp only [efT, Except.ok.injEq] at h
    subst h; rfl
  | .nameE s, e2, h => by
    simp only [efT, Except.ok.injEq] at h
    subst h; rfl
  | .unE op e, e2, h => by
    cases he : efT e with
    | error err => simp [efT, he, Except.map] at h
    | ok e3 =>
      have ih := efSupp e e3 he
      simp only [efT, he, Except.map, Except.ok.injEq] at h
      subst h
      simpa [suppOk] using ih
  | .binE op l r, e2, h => by
    cases hr : efT r with
    | error err => simp [efT, hr, Bind.bind, Except.bind] at h
    | ok r2 =>
      cases hl : efT l with
      | error err => simp [efT, hr, hl, Bind.bind, Except.bind] at h
      | ok l2 =>
        have ihr := efSupp r r2 hr
        have ihl := efSupp l l2 hl
        have hm : suppOk (PyExpr.callE "Mul" [minusOne, r2] true) = true := by
          simp [suppOk, suppOkList, minusOne, ihr]
        have hp : suppOk (PyExpr.callE "Pow" [r2, minusOne] true) = true := by
          simp [suppOk, suppOkList, minusOne, ihr]
        cases op <;>
          simp only [efT, hr, hl, Bind.bind, Except.bind, Except.ok.injEq] at h <;>
          subst h
        · simpa [suppOk, binArgs] using
            flatSupp "Add" [l2, r2] (by simp [suppOkList, ihl, ihr])
        · simpa [suppOk, binArgs] using
            flatSupp "Add" [l2, .callE "Mul" [minusOne, r2] true]
              (by simp [suppOkList, ihl, hm])
        · simpa [suppOk, binArgs] using
            flatSupp "Mul" [l2, r2] (by simp [suppOkList, ihl, ihr])
        · simpa [suppOk, binArgs] using
            flatSupp "Mul" [l2, .callE "Pow" [r2, minusOne] true]
              (by simp [suppOkList, ihl, hp])
        · simp [suppOk, suppOkList, ihl, ihr]
  | .cmpE l rest, e2, h => by
    by_cases hlen : rest.length > 1
    · simp [efT, hlen] at h
    · cases hl : efT l with
      | error err => simp [efT, hlen, hl, Bind.bind, Except.bind] at h
      | ok l2 =>
        have ihl := efSupp l l2 hl
        match rest, hlen with
        | [], _ =>
          simp [efT, hl, Bind.bind, Except.bind] at h
          subst h
          simpa [suppOk, List.isEmpty] using ihl
        | [(op, r)], _ =>
          cases hr : efT r with
          | error err => simp [efT, hl, hr, Bind.bind, Except.bind] at h
          | ok r2 =>
            have ihr := efSupp r r2 hr
            cases op
            all_goals simp [efT, hl, hr, Bind.bind, Except.bind] at h
            all_goals subst h
            all_goals simp [suppOk, suppOkList, ihl, ihr]
        | (p1 :: p2 :: rest2), hlen =>
          exact absurd (by simp) hlen
  | .callE f args ef, e2, h => by
    cases hargs : efTList args with
    | error err => simp [efT, hargs, Bind.bind, Except.bind] at h
    | ok args2 =>
      have ih := efSuppList args args2 hargs
      by_cases hf : f ∈ ignoreFns
      · simp [efT, hargs, Bind.bind, Except.bind, hf] at h
        subst h
        simp [suppOk, hf, ih]
      · simp [efT, hargs, Bind.bind, Except.bind, hf] at h
        subst h
        simp [suppOk, ih]
  | .callC f args, e2, h => by
    cases hfv : efT f with
    | error err => simp [efT, hfv, Bind.bind, Except.bind] at h
    | ok f2 =>
      cases hargs : efTList args with
      | error err => simp [efT, hfv, hargs, Bind.bind, Except.bind] at h
      | ok args2 => simp [efT, hfv, hargs, Bind.bind, Except.bind] at h

/-- Rewritten argument lists satisfy the invariant. -/
def efSuppList : (l l2 : List PyExpr) → efTList l = .ok l2 → suppOkList l2 = true
  | [], l2, h => by
    simp only [efTList, Except.ok.injEq] at h
    subst h; rfl
  | e :: rest, l2, h => by
    cases he : efT e with
    | error err => simp [efTList, he, Bind.bind, Except.bind] at h
    | ok e2 =>
      cases hrest : efTList rest with
      | error err => simp [efTList, he, hrest, Bind.bind, Except.bind] at h
      | ok rest2 =>
        have h1 := efSupp e e2 he
        have h2 := efSuppList rest rest2 hrest
        simp only [efTList, he, hrest, Bind.bind, Except.bind, Except.ok.injEq] at h
        subst h
        simp [suppOkList, h1, h2]

end

/-! ## Dictionary update lemmas -/

theorem lookupD_setKey (d : Dict) (k : String) (v : Binding) (k2 : String) :
    lookupD (setKey d k v) k2 = if k2 = k then some v else lookupD d k2 := by
  induction d with
  | nil =>
    by_cases h : k = k2
    · subst h
      simp [setKey, lookupD, List.find?]
    · have h2 : ¬k2 = k := fun hc => h hc.symm
      simp [setKey, lookupD, List.find?, h, h2]
  | cons p t ih =>
    rcases p with ⟨pk, pv⟩
    simp only [setKey]
    by_cases hp : pk = k
    · subst hp
      simp only [if_pos rfl]
      by_cases h : pk = k2
      · subst h
        simp [lookupD, List.find?]
      · have h2 : ¬k2 = pk := fun hc => h hc.symm
        simp [lookupD, List.find?, h, h2]
    · simp only [if_neg hp]
      by_cases h : pk = k2
      · subst h
        have h2 : ¬pk = k := hp
        simp [lookupD, List.find?, h2]
      · have h2 : ¬k2 = pk := fun hc => h hc.symm
        simp only [lookupD, List.find?, h, decide_eq_false h, Bool.false_eq_true,
          reduceCtorEq]
        simpa [lookupD] using ih

theorem lookupD_append (l1 l2 : Dict) (k : String) :
    lookupD (l1 ++ l2) k = orD (lookupD l1 k) (lookupD l2 k) := by
  induction l1 with
  | nil => simp [lookupD, orD]
  | cons p t ih =>
    by_cases hp : p.1 = k
    · simp [lookupD, List.find?, hp, orD]
    · simp only [List.cons_append, lookupD, List.find?, decide_eq_false hp,
        Bool.false_eq_true, reduceCtorEq]
      simpa [lookupD, orD] using ih

theorem lookupD_updateAll (bs : Dict) (d : Dict) (k : String) :
    lookupD (updateAll d bs) k = orD (lookupD bs.reverse k) (lookupD d k) := by
  induction bs generalizing d with
  | nil => simp [updateAll, lookupD, orD]
  | cons p t ih =>
    have step : updateAll d (p :: t) = updateAll (setKey d p.1 p.2) t := by
      simp [updateAll, List.foldl]
    rw [step, ih, lookupD_setKey]
    have hr : (p :: t).reverse = t.reverse ++ [p] := by simp
    rw [hr, lookupD_append]
    cases hl : lookupD t.reverse k with
    | some v => simp [orD]
    | none =>
      by_cases h : k = p.1
      · subst h
        simp [orD, lookupD, List.find?]
      · have h2 : ¬p.1 = k := fun hc => h (by rw [hc])
        simp [orD, lookupD, List.find?, h2, h]

theorem lookup_mergeHints_single (d : Dict) (h k : String) (bs : Dict)
    (v : Binding) (hb : hintBindings h = some bs)
    (hv : lookupD bs.reverse k = some v) :
    lookupD (mergeHints d [h]) k = some v := by
  have : mergeHints d [h] = updateAll d bs := by
    simp [mergeHints, List.foldl, hb]
  rw [this, lookupD_updateAll, hv]
  rfl

theorem mergeHints_cons (d : Dict) (h : String) (hs : List String) :
    mergeHints d (h :: hs) =
      mergeHints (match hintBindings h with
        | some bs => updateAll d bs
        | none => d) hs := by
  simp [mergeHints, List.foldl]

theorem mergeHints_unknown (d : Dict) (hs1 hs2 : List String) (h : String)
    (hh : hintBindings h = none) :
    mergeHints d (hs1 ++ h :: hs2) = mergeHints d (hs1 ++ hs2) := by
  induction hs1 generalizing d with
  | nil => simp [mergeHints_cons, hh]
  | cons a t ih => simp only [List.cons_append, mergeHints_cons]; exact ih _

/-! ## Sanitizer lemmas -/

theorem allowed_nonascii (c : Char) (h1 : allowedChar c = true)
    (h2 : isAsciiChar c = false) : c = '±' := by
  simp only [allowedChar, Bool.or_eq_true, decide_eq_true_eq,
    Bool.and_eq_true] at h1
  simp only [isAsciiChar, decide_eq_false_iff_not, not_le] at h2
  rcases h1 with h1 | hpm
  · exfalso
    rcases h1 with ((((((h | h) | h) | h) | h) | h) | h) | h
    · subst h; simp at h2
    · omega
    · omega
    · omega
    · omega
    · omega
    · omega
    · omega
  · exact hpm

theorem subNonAsciiGo_allowed (l : List Char) :
    ∀ (prev : Option UniName), (∀ c ∈ l, allowedChar c = true) →
      subNonAsciiGo prev l = l := by
  induction l with
  | nil => intro prev _; rfl
  | cons c t ih =>
    intro prev hall
    by_cases hc : isAsciiChar c = true
    · simp only [subNonAsciiGo, hc, if_true]
      rw [ih none (fun x hx => hall x (by simp [hx]))]
    · have hpm : c = '±' :=
        allowed_nonascii c (hall c (by simp)) (by
          revert hc; cases isAsciiChar c <;> simp)
      subst hpm
      have hproc : procChar prev '±' = ['±'] := rfl
      simp only [subNonAsciiGo, hc, if_false, hproc, Bool.false_eq_true]
      rw [ih (uniName '±') (fun x hx => hall x (by simp [hx]))]
      rfl

theorem replaceUnsafeGo_allowed (l : List Char) :
    ∀ b, (∀ c ∈ l, allowedChar c = true) → replaceUnsafeGo b l = l := by
  induction l with
  | nil => intro b _; rfl
  | cons c t ih =>
    intro b hall
    have hc : allowedChar c = true := hall c (by simp)
    simp only [replaceUnsafeGo, hc, if_true]
    rw [ih false (fun x hx => hall x (by simp [hx]))]

theorem noq_of_allowed (l : List Char) (h : ∀ c ∈ l, allowedChar c = true) :
    '?' ∉ l := by
  intro hq
  have := h '?' hq
  simp [allowedChar] at this

/-- Combined membership and no-dot identity facts for the subA scanner,
by induction on the length of the scanned tail. -/
theorem subAStep_facts : ∀ (n : Nat) (t : List Char), t.length ≤ n →
    ∀ a : Char,
      (∀ c, c ∈ subAStep a t → c = a ∨ c ∈ t ∨ c = ' ') ∧
      ('.' ∉ a :: t → subAStep a t = a :: t) := by
  intro n
  induction n with
  | zero =>
    intro t ht a
    have hte : t = [] := List.eq_nil_of_length_eq_zero (Nat.le_zero.mp ht)
    subst hte
    refine ⟨?_, fun _ => subAStep.eq_3 a⟩
    intro c hc
    rw [subAStep.eq_3] at hc
    simp at hc
    exact Or.inl hc
  | succ n ih =>
    intro t ht a
    rcases t with _ | ⟨b, t2⟩
    · refine ⟨?_, fun _ => subAStep.eq_3 a⟩
      intro c hc
      rw [subAStep.eq_3] at hc
      simp at hc
      exact Or.inl hc
    · rcases t2 with _ | ⟨c2, rest⟩
      · have heq : subAStep a [b] = a :: subAStep b [] :=
          subAStep.eq_2 a b [] (by intro x y _ hy; exact List.noConfusion hy)
        refine ⟨?_, ?_⟩
        · intro c hc
          rw [heq, subAStep.eq_3] at hc
          simp at hc
          rcases hc with h | h
          · exact Or.inl h
          · exact Or.inr (Or.inl (by simp [h]))
        · intro _
          rw [heq, subAStep.eq_3]
      · have hlen : (c2 :: rest).length ≤ n := by
          simp only [List.length_cons] at ht ⊢
          omega
        by_cases hb : b = '.'
        · subst hb
          refine ⟨?_, ?_⟩
          · intro c hc
            rw [subAStep.eq_1] at hc
            split_ifs at hc with hcond
            · simp only [List.mem_cons] at hc
              rcases hc with h | h | h | h
              · exact Or.inl h
              · exact Or.inr (Or.inr h)
              · exact Or.inr (Or.inl (by simp [h]))
              · rcases rest with _ | ⟨r1, rest2⟩
                · simp [subA] at h
                · have hmem := (ih rest2 (by
                    simp only [List.length_cons] at ht ⊢; omega) r1).1 c
                    (by simpa [subA] using h)
                  rcases hmem with h | h | h
                  · exact Or.inr (Or.inl (by simp [h]))
                  · exact Or.inr (Or.inl (by simp [h]))
                  · exact Or.inr (Or.inr h)
            · simp only [List.mem_cons] at hc
              rcases hc with h | h
              · exact Or.inl h
              · rcases (ih (c2 :: rest) hlen '.').1 c h with h | h | h
                · exact Or.inr (Or.inl (by simp [h]))
                · exact Or.inr (Or.inl (by simp [h]))
                · exact Or.inr (Or.inr h)
          · intro hnd
            exact absurd (by simp : '.' ∈ a :: '.' :: c2 :: rest) hnd
        · have heq : subAStep a (b :: c2 :: rest) = a :: subAStep b (c2 :: rest) :=
            subAStep.eq_2 a b (c2 :: rest) (by intro x y hx _; exact hb hx)
          have ihb := ih (c2 :: rest) hlen b
          refine ⟨?_, ?_⟩
          · intro c hc
            rw [heq] at hc
            simp only [List.mem_cons] at hc
            rcases hc with h | h
            · exact Or.inl h
            · rcases ihb.1 c h with h | h | h
              · exact Or.inr (Or.inl (by simp [h]))
              · exact Or.inr (Or.inl (by
                  simp only [List.mem_cons] at h ⊢
                  tauto))
              · exact Or.inr (Or.inr h)
          · intro hnd
            rw [heq, ihb.2 (fun hm => hnd (List.mem_cons_of_mem a hm))]

theorem mem_subA (l : List Char) (c : Char) (h : c ∈ subA l) :
    c ∈ l ∨ c = ' ' := by
  rcases l with _ | ⟨a, t⟩
  · simp [subA] at h
  · rcases (subAStep_facts t.length t le_rfl a).1 c (by simpa [subA] using h)
      with h | h | h
    · exact Or.inl (by simp [h])
    · exact Or.inl (by simp only [List.mem_cons]; tauto)
    · exact Or.inr h

theorem subA_nodot (l : List Char) (h : '.' ∉ l) : subA l = l := by
  rcases l with _ | ⟨a, t⟩
  · rfl
  · exact (subAStep_facts t.length t le_rfl a).2 h

/-- Combined membership and no-dot identity facts for the subB scanner. -/
theorem subBStep_facts : ∀ (n : Nat) (t : List Char), t.length ≤ n →
    ∀ a : Char,
      (∀ c, c ∈ subBStep a t → c = a ∨ c ∈ t ∨ c = ' ') ∧
      ('.' ∉ a :: t → subBStep a t = a :: t) := by
  intro n
  induction n with
  | zero =>
    intro t ht a
    have hte : t = [] := List.eq_nil_of_length_eq_zero (Nat.le_zero.mp ht)
    subst hte
    refine ⟨?_, fun _ => subBStep.eq_3 a⟩
    intro c hc
    rw [subBStep.eq_3] at hc
    simp at hc
    exact Or.inl hc
  | succ n ih =>
    intro t ht a
    rcases t with _ | ⟨b, t2⟩
    · refine ⟨?_, fun _ => subBStep.eq_3 a⟩
      intro c hc
      rw [subBStep.eq_3] at hc
      simp at hc
      exact Or.inl hc
    · have hsubB : ∀ (u : List Char), u.length ≤ n → ∀ c, c ∈ subB u →
          c ∈ u ∨ c = ' ' := by
        intro u hu c hc
        rcases u with _ | ⟨u1, u2⟩
        · simp [subB] at hc
        · rcases (ih u2 (by simp only [List.length_cons] at hu; omega) u1).1 c
            (by simpa [subB] using hc) with h | h | h
          · exact Or.inl (by simp [h])
          · exact Or.inl (by simp only [List.mem_cons]; tauto)
          · exact Or.inr h
      rcases t2 with _ | ⟨c2, rest⟩
      · have heq : subBStep a [b] =
            if a = '.' ∧ ¬b.isDigit then ' ' :: b :: subB [] else a :: subBStep b [] :=
          subBStep.eq_2 a b [] (by intro x y _ hy; exact List.noConfusion hy)
        refine ⟨?_, ?_⟩
        · intro c hc
          rw [heq] at hc
          split_ifs at hc
          · simp only [subB, List.mem_cons] at hc
            rcases hc with h | h | h
            · exact Or.inr (Or.inr h)
            · exact Or.inr (Or.inl (by simp [h]))
            · simp at h
          · rw [subBStep.eq_3] at hc
            simp at hc
            rcases hc with h | h
            · exact Or.inl h
            · exact Or.inr (Or.inl (by simp [h]))
        · intro hnd
          have ha : ¬a = '.' := fun hc => hnd (by simp [hc])
          rw [heq, if_neg (fun hc => ha hc.1), subBStep.eq_3]
      · have hlen : (c2 :: rest).length ≤ n := by
          simp only [List.length_cons] at ht ⊢
          omega
        have hlenr : rest.length ≤ n := by
          simp only [List.length_cons] at ht
          omega
        by_cases hb : b = '.'
        · subst hb
          refine ⟨?_, ?_⟩
          · intro c hc
            rw [subBStep.eq_1] at hc
            split_ifs at hc with h1 h2
            · simp only [List.mem_cons] at hc
              rcases hc with h | h | h | h
              · exact Or.inl h
              · exact Or.inr (Or.inr h)
              · exact Or.inr (Or.inl (by simp [h]))
              · rcases hsubB rest hlenr c h with h | h
                · exact Or.inr (Or.inl (by simp [h]))
                · exact Or.inr (Or.inr h)
            · simp only [List.mem_cons] at hc
              rcases hc with h | h | h
              · exact Or.inr (Or.inr h)
              · exact Or.inr (Or.inl (by simp [h]))
              · rcases hsubB (c2 :: rest) hlen c h with h | h
                · exact Or.inr (Or.inl (by simp only [List.mem_cons] at h ⊢; tauto))
                · exact Or.inr (Or.inr h)
            · simp only [List.mem_cons] at hc
              rcases hc with h | h
              · exact Or.inl h
              · rcases (ih (c2 :: rest) hlen '.').1 c h with h | h | h
                · exact Or.inr (Or.inl (by simp [h]))
                · exact Or.inr (Or.inl (by simp only [List.mem_cons] at h ⊢; tauto))
                · exact Or.inr (Or.inr h)
          · intro hnd
            exact absurd (by simp : '.' ∈ a :: '.' :: c2 :: rest) hnd
        · have heq : subBStep a (b :: c2 :: rest) =
              if a = '.' ∧ ¬b.isDigit then ' ' :: b :: subB (c2 :: rest)
              else a :: subBStep b (c2 :: rest) :=
            subBStep.eq_2 a b (c2 :: rest) (by intro x y hx _; exact hb hx)
          have ihb := ih (c2 :: rest) hlen b
          refine ⟨?_, ?_⟩
          · intro c hc
            rw [heq] at hc
            split_ifs at hc
            · simp only [List.mem_cons] at hc
              rcases hc with h | h | h
              · exact Or.inr (Or.inr h)
              · exact Or.inr (Or.inl (by simp [h]))
              · rcases hsubB (c2 :: rest) hlen c h with h | h
                · exact Or.inr (Or.inl (by simp only [List.mem_cons] at h ⊢; tauto))
                · exact Or.inr (Or.inr h)
            · simp only [List.mem_cons] at hc
              rcases hc with h | h
              · exact Or.inl h
              · rcases ihb.1 c h with h | h | h
                · exact Or.inr (Or.inl (by simp [h]))
                · exact Or.inr (Or.inl (by simp only [List.mem_cons] at h ⊢; tauto))
                · exact Or.inr (Or.inr h)
          · intro hnd
            have ha : ¬a = '.' := fun hc => hnd (by simp [hc])
            rw [heq, if_neg (fun hc => ha hc.1),
              ihb.2 (fun hm => hnd (List.mem_cons_of_mem a hm))]

theorem mem_subB (l : List Char) (c : Char) (h : c ∈ subB l) :
    c ∈ l ∨ c = ' ' := by
  rcases l with _ | ⟨a, t⟩
  · simp [subB] at h
  · rcases (subBStep_facts t.length t le_rfl a).1 c (by simpa [subB] using h)
      with h | h | h
    · exact Or.inl (by simp [h])
    · exact Or.inl (by simp only [List.mem_cons]; tauto)
    · exact Or.inr h

theorem subB_nodot (l : List Char) (h : '.' ∉ l) : subB l = l := by
  rcases l with _ | ⟨a, t⟩
  · rfl
  · exact (subBStep_facts t.length t le_rfl a).2 h

theorem mem_lamRepl (l : List Char) : ∀ c, c ∈ lamRepl l → c ∈ l := by
  induction l using lamRepl.induct with
  | case1 rest ih =>
    intro c h
    rw [lamRepl.eq_1] at h
    simp only [List.mem_cons] at h ⊢
    rcases h with h | h | h | h | h | h
    · tauto
    · tauto
    · tauto
    · tauto
    · tauto
    · have := ih c h
      tauto
  | case2 c0 rest hguard ih =>
    intro c h
    rw [lamRepl.eq_2 c0 rest hguard] at h
    simp only [List.mem_cons] at h ⊢
    rcases h with h | h
    · tauto
    · have := ih c h
      tauto
  | case3 => intro c h; rw [lamRepl.eq_3] at h; simp at h

theorem mem_capLamRepl (l : List Char) : ∀ c, c ∈ capLamRepl l → c ∈ l := by
  induction l using capLamRepl.induct with
  | case1 rest ih =>
    intro c h
    rw [capLamRepl.eq_1] at h
    simp only [List.mem_cons] at h ⊢
    rcases h with h | h | h | h | h | h
    · tauto
    · tauto
    · tauto
    · tauto
    · tauto
    · have := ih c h
      tauto
  | case2 c0 rest hguard ih =>
    intro c h
    rw [capLamRepl.eq_2 c0 rest hguard] at h
    simp only [List.mem_cons] at h ⊢
    rcases h with h | h
    · tauto
    · have := ih c h
      tauto
  | case3 => intro c h; rw [capLamRepl.eq_3] at h; simp at h

theorem mem_dundRepl (l : List Char) : ∀ c, c ∈ dundRepl l → c ∈ l ∨ c = ' ' := by
  induction l using dundRepl.induct with
  | case1 rest ih =>
    intro c h
    rw [dundRepl.eq_1] at h
    simp only [List.mem_cons] at h ⊢
    rcases h with h | h
    · tauto
    · have := ih c h
      tauto
  | case2 c0 rest hguard ih =>
    intro c h
    rw [dundRepl.eq_2 c0 rest hguard] at h
    simp only [List.mem_cons] at h ⊢
    rcases h with h | h
    · tauto
    · have := ih c h
      tauto
  | case3 => intro c h; rw [dundRepl.eq_3] at h; simp at h

theorem upEq_pos (prev : Option Char) (rest : List Char)
    (hcond : prevFree prev = true ∧ headFree rest = true) :
    upEq prev ('=' :: rest) = '=' :: '=' :: upEq (some '=') rest := by
  simp [upEq, hcond]

theorem upEq_neg (prev : Option Char) (rest : List Char)
    (hcond : ¬(prevFree prev = true ∧ headFree rest = true)) :
    upEq prev ('=' :: rest) = '=' :: upEq (some '=') rest := by
  simp [upEq, hcond]

theorem upEq_other (prev : Option Char) (c0 : Char) (rest : List Char)
    (hne : ¬c0 = '=') :
    upEq prev (c0 :: rest) = c0 :: upEq (some c0) rest := by
  simp [upEq, hne]

theorem mem_upEq (prev : Option Char) (l : List Char) :
    ∀ c, c ∈ upEq prev l → c ∈ l := by
  induction prev, l using upEq.induct with
  | case1 prev => intro c h; simp [upEq] at h
  | case2 prev rest hcond ih =>
    intro c h
    rw [upEq_pos prev rest hcond] at h
    simp only [List.mem_cons] at h ⊢
    rcases h with h | h | h
    · tauto
    · tauto
    · have := ih c h
      tauto
  | case3 prev rest hcond ih =>
    intro c h
    rw [upEq_neg prev rest hcond] at h
    simp only [List.mem_cons] at h ⊢
    rcases h with h | h
    · tauto
    · have := ih c h
      tauto
  | case4 prev c0 rest hne ih =>
    intro c h
    rw [upEq_other prev c0 rest hne] at h
    simp only [List.mem_cons] at h ⊢
    rcases h with h | h
    · tauto
    · have := ih c h
      tauto

theorem mem_cleanupPost (l : List Char) (c : Char) (h : c ∈ cleanupPost l) :
    c ∈ l ∨ c = ' ' := by
  have h1 := mem_upEq none _ c h
  rcases mem_dundRepl _ c h1 with h2 | h2
  · have h3 := mem_capLamRepl _ c h2
    have h4 := mem_lamRepl _ c h3
    rcases mem_subB _ c h4 with h5 | h5
    · exact mem_subA _ c h5
    · exact Or.inr h5
  · exact Or.inr h2

theorem hasSub_cons (p : List Char) (c : Char) (t : List Char)
    (h : hasSub p (c :: t) = false) :
    leadsWith p (c :: t) = false ∧ hasSub p t = false := by
  simpa [hasSub] using h

theorem leads_exists (w : List Char) : ∀ l, leadsWith w l = true → ∃ t, l = w ++ t := by
  induction w with
  | nil => intro l _; exact ⟨l, rfl⟩
  | cons a w2 ih =>
    intro l h
    rcases l with _ | ⟨b, t⟩
    · simp [leadsWith] at h
    · simp only [leadsWith, Bool.and_eq_true, decide_eq_true_eq] at h
      obtain ⟨t2, ht⟩ := ih t h.2
      exact ⟨t2, by simp [h.1, ht]⟩

theorem leads_lamRepl_inv (l : List Char) : ∀ w, (∀ c ∈ w, ¬c = 'l') →
    leadsWith w (lamRepl l) = true → leadsWith w l = true := by
  induction l using lamRepl.induct with
  | case1 rest ih =>
    intro w hw h
    rcases w with _ | ⟨a, w2⟩
    · rfl
    · rw [lamRepl.eq_1] at h
      simp only [leadsWith, Bool.and_eq_true, decide_eq_true_eq] at h
      exact absurd h.1 (hw a (by simp))
  | case2 c0 rest hguard ih =>
    intro w hw h
    rw [lamRepl.eq_2 c0 rest hguard] at h
    rcases w with _ | ⟨a, w2⟩
    · rfl
    · simp only [leadsWith, Bool.and_eq_true, decide_eq_true_eq] at h ⊢
      exact ⟨h.1, ih w2 (fun c hc => hw c (by simp [hc])) h.2⟩
  | case3 =>
    intro w hw h
    rw [lamRepl.eq_3] at h
    rcases w with _ | ⟨a, w2⟩
    · rfl
    · simp [leadsWith] at h

theorem leads_capLamRepl_inv (l : List Char) : ∀ w, (∀ c ∈ w, ¬c = 'L') →
    leadsWith w (capLamRepl l) = true → leadsWith w l = true := by
  induction l using capLamRepl.induct with
  | case1 rest ih =>
    intro w hw h
    rcases w with _ | ⟨a, w2⟩
    · rfl
    · rw [capLamRepl.eq_1] at h
      simp only [leadsWith, Bool.and_eq_true, decide_eq_true_eq] at h
      exact absurd h.1 (hw a (by simp))
  | case2 c0 rest hguard ih =>
    intro w hw h
    rw [capLamRepl.eq_2 c0 rest hguard] at h
    rcases w with _ | ⟨a, w2⟩
    · rfl
    · simp only [leadsWith, Bool.and_eq_true, decide_eq_true_eq] at h ⊢
      exact ⟨h.1, ih w2 (fun c hc => hw c (by simp [hc])) h.2⟩
  | case3 =>
    intro w hw h
    rw [capLamRepl.eq_3] at h
    rcases w with _ | ⟨a, w2⟩
    · rfl
    · simp [leadsWith] at h

theorem leads_dundRepl_inv (l : List Char) : ∀ w, (∀ c ∈ w, ¬c = '_' ∧ ¬c = ' ') →
    leadsWith w (dundRepl l) = true → leadsWith w l = true := by
  induction l using dundRepl.induct with
  | case1 rest ih =>
    intro w hw h
    rcases w with _ | ⟨a, w2⟩
    · rfl
    · rw [dundRepl.eq_1] at h
      simp only [leadsWith, Bool.and_eq_true, decide_eq_true_eq] at h
      exact absurd h.1 (hw a (by simp)).2
  | case2 c0 rest hguard ih =>
    intro w hw h
    rw [dundRepl.eq_2 c0 rest hguard] at h
    rcases w with _ | ⟨a, w2⟩
    · rfl
    · simp only [leadsWith, Bool.and_eq_true, decide_eq_true_eq] at h ⊢
      exact ⟨h.1, ih w2 (fun c hc => hw c (by simp [hc])) h.2⟩
  | case3 =>
    intro w hw h
    rw [dundRepl.eq_3] at h
    rcases w with _ | ⟨a, w2⟩
    · rfl
    · simp [leadsWith] at h

theorem leads_upEq_inv : ∀ (prev : Option Char) (l : List Char) (w : List Char),
    (∀ c ∈ w, ¬c = '=') → leadsWith w (upEq prev l) = true → leadsWith w l = true := by
  intro prev l
  induction prev, l using upEq.induct with
  | case1 prev =>
    intro w hw h
    simp only [upEq] at h
    rcases w with _ | ⟨a, w2⟩
    · rfl
    · simp [leadsWith] at h
  | case2 prev rest hcond ih =>
    intro w hw h
    rw [upEq_pos prev rest hcond] at h
    rcases w with _ | ⟨a, w2⟩
    · rfl
    · simp only [leadsWith, Bool.and_eq_true, decide_eq_true_eq] at h
      exact absurd h.1 (hw a (by simp))
  | case3 prev rest hcond ih =>
    intro w hw h
    rw [upEq_neg prev rest hcond] at h
    rcases w with _ | ⟨a, w2⟩
    · rfl
    · simp only [leadsWith, Bool.and_eq_true, decide_eq_true_eq] at h
      exact absurd h.1 (hw a (by simp))
  | case4 prev c0 rest hne ih =>
    intro w hw h
    rw [upEq_other prev c0 rest hne] at h
    rcases w with _ | ⟨a, w2⟩
    · rfl
    · simp only [leadsWith, Bool.and_eq_true, decide_eq_true_eq] at h ⊢
      exact ⟨h.1, ih w2 (fun c hc => hw c (by simp [hc])) h.2⟩

theorem lamRepl_noLam (l : List Char) : hasSub lamPat (lamRepl l) = false := by
  induction l using lamRepl.induct with
  | case1 rest ih =>
    rw [lamRepl.eq_1]
    simp only [hasSub, lamPat, leadsWith]
    simp
    exact ih
  | case2 c0 rest hguard ih =>
    rw [lamRepl.eq_2 c0 rest hguard]
    have h2 : leadsWith lamPat (c0 :: lamRepl rest) = false := by
      by_contra hx
      have hx2 : leadsWith lamPat (c0 :: lamRepl rest) = true := by
        revert hx; cases leadsWith lamPat (c0 :: lamRepl rest) <;> simp
      simp only [lamPat, leadsWith, Bool.and_eq_true, decide_eq_true_eq] at hx2
      obtain ⟨hc0, hlead⟩ := hx2
      have hlead2 : leadsWith ['a', 'm', 'b', 'd', 'a'] (lamRepl rest) = true := by
        simpa [leadsWith] using hlead
      have hinv := leads_lamRepl_inv rest ['a', 'm', 'b', 'd', 'a'] (by decide) hlead2
      obtain ⟨r2, hr⟩ := leads_exists ['a', 'm', 'b', 'd', 'a'] rest hinv
      exact hguard r2 hc0.symm (by simpa using hr)
    simp [hasSub, h2, ih]
  | case3 => simp [hasSub, lamPat]

theorem capLamRepl_noCap (l : List Char) : hasSub capLamPat (capLamRepl l) = false := by
  induction l using capLamRepl.induct with
  | case1 rest ih =>
    rw [capLamRepl.eq_1]
    simp only [hasSub, capLamPat, leadsWith]
    simp
    exact ih
  | case2 c0 rest hguard ih =>
    rw [capLamRepl.eq_2 c0 rest hguard]
    have h2 : leadsWith capLamPat (c0 :: capLamRepl rest) = false := by
      by_contra hx
      have hx2 : leadsWith capLamPat (c0 :: capLamRepl rest) = true := by
        revert hx; cases leadsWith capLamPat (c0 :: capLamRepl rest) <;> simp
      simp only [capLamPat, leadsWith, Bool.and_eq_true, decide_eq_true_eq] at hx2
      obtain ⟨hc0, hlead⟩ := hx2
      have hlead2 : leadsWith ['a', 'm', 'b', 'd', 'a'] (capLamRepl rest) = true := by
        simpa [leadsWith] using hlead
      have hinv := leads_capLamRepl_inv rest ['a', 'm', 'b', 'd', 'a'] (by decide) hlead2
      obtain ⟨r2, hr⟩ := leads_exists ['a', 'm', 'b', 'd', 'a'] rest hinv
      exact hguard r2 hc0.symm (by simpa using hr)
    simp [hasSub, h2, ih]
  | case3 => simp [hasSub, capLamPat]

theorem dund_head (l : List Char) :
    leadsWith ['_'] (dundRepl l) = true → leadsWith ['_'] l = true := by
  induction l using dundRepl.induct with
  | case1 rest ih =>
    intro h
    rw [dundRepl.eq_1] at h
    simp [leadsWith] at h
  | case2 c0 rest hguard ih =>
    intro h
    rw [dundRepl.eq_2 c0 rest hguard] at h
    simpa [leadsWith] using h
  | case3 =>
    intro h
    rw [dundRepl.eq_3] at h
    simp [leadsWith] at h

theorem dundRepl_noDund (l : List Char) : hasSub dundPat (dundRepl l) = false := by
  induction l using dundRepl.induct with
  | case1 rest ih =>
    rw [dundRepl.eq_1]
    simp only [hasSub, dundPat, leadsWith]
    simp
    exact ih
  | case2 c0 rest hguard ih =>
    rw [dundRepl.eq_2 c0 rest hguard]
    have h2 : leadsWith dundPat (c0 :: dundRepl rest) = false := by
      by_contra hx
      have hx2 : leadsWith dundPat (c0 :: dundRepl rest) = true := by
        revert hx; cases leadsWith dundPat (c0 :: dundRepl rest) <;> simp
      simp only [dundPat, leadsWith, Bool.and_eq_true, decide_eq_true_eq] at hx2
      obtain ⟨hc0, hlead⟩ := hx2
      have hlead2 : leadsWith ['_'] (dundRepl rest) = true := by
        simpa [leadsWith] using hlead
      have hinv := dund_head rest hlead2
      obtain ⟨r2, hr⟩ := leads_exists ['_'] rest hinv
      exact hguard r2 hc0.symm (by simpa using hr)
    simp [hasSub, h2, ih]
  | case3 => simp [hasSub, dundPat]

theorem noLam_capLamRepl : ∀ l, hasSub lamPat l = false →
    hasSub lamPat (capLamRepl l) = false := by
  intro l
  induction l using capLamRepl.induct with
  | case1 rest ih =>
    intro h
    have h1 := (hasSub_cons _ _ _ h).2
    have h2 := (hasSub_cons _ _ _ h1).2
    have h3 := (hasSub_cons _ _ _ h2).2
    have h4 := (hasSub_cons _ _ _ h3).2
    have h5 := (hasSub_cons _ _ _ h4).2
    have h6 := (hasSub_cons _ _ _ h5).2
    rw [capLamRepl.eq_1]
    simp only [hasSub, lamPat, leadsWith]
    simp
    exact ih h6
  | case2 c0 rest hguard ih =>
    intro h
    obtain ⟨hh, ht⟩ := hasSub_cons _ _ _ h
    rw [capLamRepl.eq_2 c0 rest hguard]
    have h2 : leadsWith lamPat (c0 :: capLamRepl rest) = false := by
      by_contra hx
      have hx2 : leadsWith lamPat (c0 :: capLamRepl rest) = true := by
        revert hx; cases leadsWith lamPat (c0 :: capLamRepl rest) <;> simp
      simp only [lamPat, leadsWith, Bool.and_eq_true, decide_eq_true_eq] at hx2
      obtain ⟨hc0, hlead⟩ := hx2
      have hlead2 : leadsWith ['a', 'm', 'b', 'd', 'a'] (capLamRepl rest) = true := by
        simpa [leadsWith] using hlead
      have hinv := leads_capLamRepl_inv rest ['a', 'm', 'b', 'd', 'a'] (by decide) hlead2
      have : leadsWith lamPat (c0 :: rest) = true := by
        simp only [lamPat, leadsWith, Bool.and_eq_true, decide_eq_true_eq]
        refine ⟨hc0, by simpa [leadsWith] using hinv⟩
      rw [this] at hh
      exact Bool.true_eq_false.mp hh
    simp [hasSub, h2, ih ht]
  | case3 => intro h; exact h

theorem noSub_dundRepl (ph : Char) (pt : List Char)
    (hph : ¬ph = ' ') (hpt : ∀ c ∈ pt, ¬c = '_' ∧ ¬c = ' ') :
    ∀ l, hasSub (ph :: pt) l = false → hasSub (ph :: pt) (dundRepl l) = false := by
  intro l
  induction l using dundRepl.induct with
  | case1 rest ih =>
    intro h
    have h1 := (hasSub_cons _ _ _ h).2
    have h2 := (hasSub_cons _ _ _ h1).2
    rw [dundRepl.eq_1]
    simp [hasSub, leadsWith, hph, ih h2]
  | case2 c0 rest hguard ih =>
    intro h
    obtain ⟨hh, ht⟩ := hasSub_cons _ _ _ h
    rw [dundRepl.eq_2 c0 rest hguard]
    have h2 : leadsWith (ph :: pt) (c0 :: dundRepl rest) = false := by
      by_contra hx
      have hx2 : leadsWith (ph :: pt) (c0 :: dundRepl rest) = true := by
        revert hx; cases leadsWith (ph :: pt) (c0 :: dundRepl rest) <;> simp
      simp only [leadsWith, Bool.and_eq_true, decide_eq_true_eq] at hx2
      obtain ⟨hc0, hlead⟩ := hx2
      have hinv := leads_dundRepl_inv rest pt hpt hlead
      have : leadsWith (ph :: pt) (c0 :: rest) = true := by
        simp only [leadsWith, Bool.and_eq_true, decide_eq_true_eq]
        exact ⟨hc0, hinv⟩
      rw [this] at hh
      exact Bool.true_eq_false.mp hh
    simp [hasSub, h2, ih ht]
  | case3 => intro h; exact h

theorem noSub_upEq (ph : Char) (pt : List Char)
    (hph : ¬ph = '=') (hpt : ∀ c ∈ pt, ¬c = '=') :
    ∀ (prev : Option Char) (l : List Char), hasSub (ph :: pt) l = false →
      hasSub (ph :: pt) (upEq prev l) = false := by
  intro prev l
  induction prev, l using upEq.induct with
  | case1 prev =>
    intro h
    simp only [upEq]
    exact h
  | case2 prev rest hcond ih =>
    intro h
    obtain ⟨hh, ht⟩ := hasSub_cons _ _ _ h
    rw [upEq_pos prev rest hcond]
    simp [hasSub, leadsWith, hph, ih ht]
  | case3 prev rest hcond ih =>
    intro h
    obtain ⟨hh, ht⟩ := hasSub_cons _ _ _ h
    rw [upEq_neg prev rest hcond]
    simp [hasSub, leadsWith, hph, ih ht]
  | case4 prev c0 rest hne ih =>
    intro h
    obtain ⟨hh, ht⟩ := hasSub_cons _ _ _ h
    rw [upEq_other prev c0 rest hne]
    have h2 : leadsWith (ph :: pt) (c0 :: upEq (some c0) rest) = false := by
      by_contra hx
      have hx2 : leadsWith (ph :: pt) (c0 :: upEq (some c0) rest) = true := by
        revert hx; cases leadsWith (ph :: pt) (c0 :: upEq (some c0) rest) <;> simp
      simp only [leadsWith, Bool.and_eq_true, decide_eq_true_eq] at hx2
      obtain ⟨hc0, hlead⟩ := hx2
      have hinv := leads_upEq_inv (some c0) rest pt hpt hlead
      have : leadsWith (ph :: pt) (c0 :: rest) = true := by
        simp only [leadsWith, Bool.and_eq_true, decide_eq_true_eq]
        exact ⟨hc0, hinv⟩
      rw [this] at hh
      exact Bool.true_eq_false.mp hh
    simp [hasSub, h2, ih ht]

theorem lamRepl_id : ∀ l, hasSub lamPat l = false → lamRepl l = l := by
  intro l
  induction l using lamRepl.induct with
  | case1 rest ih =>
    intro h
    exfalso
    simp [hasSub, lamPat, leadsWith] at h
  | case2 c0 rest hguard ih =>
    intro h
    rw [lamRepl.eq_2 c0 rest hguard, ih (hasSub_cons _ _ _ h).2]
  | case3 => intro h; rfl

theorem capLamRepl_id : ∀ l, hasSub capLamPat l = false → capLamRepl l = l := by
  intro l
  induction l using capLamRepl.induct with
  | case1 rest ih =>
    intro h
    exfalso
    simp [hasSub, capLamPat, leadsWith] at h
  | case2 c0 rest hguard ih =>
    intro h
    rw [capLamRepl.eq_2 c0 rest hguard, ih (hasSub_cons _ _ _ h).2]
  | case3 => intro h; rfl

theorem dundRepl_id : ∀ l, hasSub dundPat l = false → dundRepl l = l := by
  intro l
  induction l using dundRepl.induct with
  | case1 rest ih =>
    intro h
    exfalso
    simp [hasSub, dundPat, leadsWith] at h
  | case2 c0 rest hguard ih =>
    intro h
    rw [dundRepl.eq_2 c0 rest hguard, ih (hasSub_cons _ _ _ h).2]
  | case3 => intro h; rfl

theorem headFree_upEq (prev : Option Char) (l : List Char) :
    headFree (upEq prev l) = headFree l := by
  rcases l with _ | ⟨c, rest⟩
  · rfl
  · by_cases hc : c = '='
    · subst hc
      by_cases hcond : prevFree prev = true ∧ headFree rest = true
      · rw [upEq_pos prev rest hcond]
        rfl
      · rw [upEq_neg prev rest hcond]
        rfl
    · rw [upEq_other prev c rest hc]
      rfl


theorem upEq_idem : ∀ (prev : Option Char) (l : List Char),
    upEq prev (upEq prev l) = upEq prev l := by
  intro prev l
  induction prev, l using upEq.induct with
  | case1 prev => simp [upEq]
  | case2 prev rest hcond ih =>
    rw [upEq_pos prev rest hcond]
    rw [upEq_neg prev ('=' :: upEq (some '=') rest) (by simp [headFree, isCmpChar])]
    rw [upEq_neg (some '=') (upEq (some '=') rest) (by simp [prevFree, isCmpChar])]
    rw [ih]
  | case3 prev rest hcond ih =>
    rw [upEq_neg prev rest hcond]
    rw [upEq_neg prev (upEq (some '=') rest) (by rw [headFree_upEq]; exact hcond)]
    rw [ih]
  | case4 prev c0 rest hne ih =>
    rw [upEq_other prev c0 rest hne, upEq_other prev c0 (upEq (some c0) rest) hne, ih]

theorem map_noq (l : List Char) (h : '?' ∉ l) :
    l.map (fun c => if c = '?' then ' ' else c) = l := by
  induction l with
  | nil => rfl
  | cons c t ih =>
    have hc : ¬c = '?' := fun hx => h (by simp [hx])
    simp [hc, ih (fun hx => h (List.mem_cons_of_mem _ hx))]

theorem uniName_nonascii : ∀ (c : Char) (u : UniName),
    uniName c = some u → isAsciiChar c = false := by
  intro c u h
  unfold uniName at h
  cases hf : uniTable.find? (fun p => p.1 = c) with
  | none => rw [hf] at h; simp at h
  | some p =>
    have hmem : p ∈ uniTable := List.mem_of_find?_eq_some hf
    have hpc : p.1 = c := by
      have := List.find?_some hf
      simpa using this
    subst hpc
    fin_cases hmem <;> rfl

/-- Processing a run of superscript digits after any SUPERSCRIPT-starting
previous name emits their decoded digits without a fresh power operator. -/
theorem supRun_aux (ds : List Char) : ∀ (prev : Option UniName),
    isSupName prev = true →
    (∀ c ∈ ds, ∃ d, uniName c = some (.supDigit d)) →
    subNonAsciiGo prev ds = ds.map supVal := by
  induction ds with
  | nil => intro prev _ _; rfl
  | cons c t ih =>
    intro prev hprev hall
    obtain ⟨d, hd⟩ := hall c (by simp)
    have hna : isAsciiChar c = false := uniName_nonascii c _ hd
    have hp : procChar prev c = [d] := by
      simp [procChar, hd, hprev]
    have hs : supVal c = d := by simp [supVal, hd]
    simp only [subNonAsciiGo, hna, Bool.false_eq_true, if_false, hp, hd,
      List.map, hs]
    rw [ih (some (.supDigit d)) rfl (fun x hx => hall x (by simp [hx]))]
    rfl

/-! ## Claim theorems -/

/-- Claim C1, counterexample.  Parsing 1/xyz does not give a tree
structurally equivalent to parsing 1/(x*y*z): the active transformation
tuple uses the sympy builtin split_symbols, so the split symbols take the
default left-to-right grouping and 1/xyz builds the tree of ((1/x)*y)*z,
which differs from the tree of 1/(x*y*z). -/
theorem claim1_counterexample :
    parseTree "1/xyz" [] .noneA =
      some (.mulE [.intL 1, .powE (.symbol "x") (.intL (-1)),
        .symbol "y", .symbol "z"]) ∧
    parseTree "1/(x*y*z)" [] .noneA =
      some (.mulE [.intL 1,
        .powE (.mulE [.symbol "x", .symbol "y", .symbol "z"]) (.intL (-1))]) ∧
    parseTree "1/xyz" [] .noneA ≠ parseTree "1/(x*y*z)" [] .noneA := by
  have h1 : parseTree "1/xyz" [] .noneA =
      some (.mulE [.intL 1, .powE (.symbol "x") (.intL (-1)),
        .symbol "y", .symbol "z"]) := rfl
  have h2 : parseTree "1/(x*y*z)" [] .noneA =
      some (.mulE [.intL 1,
        .powE (.mulE [.symbol "x", .symbol "y", .symbol "z"]) (.intL (-1))]) := rfl
  refine ⟨h1, h2, ?_⟩
  rw [h1, h2]
  simp

/-- Claim C1, amended.  Parsing 1/xyz yields the default left-to-right
grouping ((1/x)*y)*z; the right-to-left grouping described by the claim is
produced only by the source function _split_symbols_implicit_precedence,
which is defined but not part of _TRANSFORMS: substituting it into the
pipeline makes 1/xyz parse exactly as 1/(x*y*z). -/
theorem claim1_amended :
    parseTree "1/xyz" [] .noneA =
      some (.mulE [.intL 1, .powE (.symbol "x") (.intL (-1)),
        .symbol "y", .symbol "z"]) ∧
    parse_expr_customsplit "1/xyz" [] .noneA = parse_expr "1/(x*y*z)" [] .noneA ∧
    parseTree "1/(x*y*z)" [] .noneA =
      some (.mulE [.intL 1,
        .powE (.mulE [.symbol "x", .symbol "y", .symbol "z"]) (.intL (-1))]) :=
  ⟨rfl, rfl, rfl⟩

/-- Claim C2, counterexample.  Not every unary operator node is built with
evaluation suppressed: the transformer has no unary visitor, so the host
negation runs and parsing -(-x) returns the same tree as parsing x, an
arithmetic simplification of the written structure. -/
theorem claim2_counterexample :
    parse_expr "-(-x)" [] .noneA = .valR (.vexpr (.symbol "x")) ∧
    parse_expr "x" [] .noneA = .valR (.vexpr (.symbol "x")) :=
  ⟨rfl, rfl⟩

/-- Claim C2, amended.  Every successful rewrite leaves no binary operator,
comparison or complex call, and every remaining call carries the
evaluate-false keyword unless its function is in the fixed exempt list
(Integer, Float, Symbol, factorial, sqrt, Sqrt); unary negation is left to
the host and can simplify.  In particular parsing cos(-x) yields the cos
application of the unevaluated negation Mul(-1, x) and is not structurally
equal to parsing cos(x). -/
theorem claim2_amended :
    (∀ e e2, efT e = .ok e2 → suppOk e2 = true) ∧
    parseTree "cos(-x)" [] .noneA =
      some (.fnE "cos" [.mulE [.intL (-1), .symbol "x"]]) ∧
    parseTree "cos(x)" [] .noneA = some (.fnE "cos" [.symbol "x"]) ∧
    parseTree "cos(-x)" [] .noneA ≠ parseTree "cos(x)" [] .noneA := by
  have h1 : parseTree "cos(-x)" [] .noneA =
      some (.fnE "cos" [.mulE [.intL (-1), .symbol "x"]]) := rfl
  have h2 : parseTree "cos(x)" [] .noneA = some (.fnE "cos" [.symbol "x"]) := rfl
  refine ⟨fun e e2 h => efSupp e e2 h, h1, h2, ?_⟩
  rw [h1, h2]
  simp

/-- Witness for the amended claim C2, at the rewrite of x + 1. -/
theorem claim2_amended_witness :
    suppOk (.callE "Add" [.nameE "x", .num "1"] true) = true :=
  claim2_amended.1 (.binE .addB (.nameE "x") (.num "1")) _ rfl

/-- Claim C3, counterexample.  A caller binding of e to the plain symbol e
does not survive selecting the constant_e hint: the hint loop writes the
hint bindings over the caller dictionary with dict.update, so the parse
returns the constant bound by the hint, not the caller binding. -/
theorem claim3_counterexample :
    parse_expr "e" [("e", .bconst (.symbol "e"))] (.listA ["constant_e"]) =
      .valR (.vexpr .constE) ∧
    parse_expr "e" [("e", .bconst (.symbol "e"))] .noneA =
      .valR (.vexpr (.symbol "e")) ∧
    PRes.valR (.vexpr .constE) ≠ PRes.valR (.vexpr (.symbol "e")) := by
  refine ⟨rfl, rfl, ?_⟩
  simp

/-- Claim C3, amended.  Selected hints take precedence over caller-supplied
local bindings (the hint loop overwrites the local dictionary), and the
merged local dictionary takes precedence over the fixed global table during
name resolution. -/
theorem claim3_amended :
    (∀ (d : Dict) (h k : String) (bs : Dict) (v : Binding),
      hintBindings h = some bs → lookupD bs.reverse k = some v →
      lookupD (mergeHints d [h]) k = some v) ∧
    (∀ (d : Dict) (n : String) (b : Binding),
      lookupD d n = some b → resolveName d n = some b) := by
  constructor
  · exact fun d h k bs v hb hv => lookup_mergeHints_single d h k bs v hb hv
  · intro d n b hb
    simp [resolveName, hb]

/-- Witness for the amended claim C3: the constant_e hint overwrites a
caller binding of e, and a local binding of log shadows the global one. -/
theorem claim3_amended_witness :
    lookupD (mergeHints [("e", Binding.bconst (SExpr.symbol "e"))]
      ["constant_e"]) "e" = some (Binding.bconst SExpr.constE) ∧
    resolveName [("log", Binding.bfunc FnSem.natlogF)] "log" =
      some (Binding.bfunc FnSem.natlogF) := by
  constructor
  · exact claim3_amended.1 _ "constant_e" "e" _ _ rfl rfl
  · exact claim3_amended.2 _ "log" _ rfl

/-- Claim C5.  After the sanitizer upgrades the single equals sign, x = 1
parses to the Equality relation of the symbol x and the literal 1; x <= 1
parses to the relation tagged with the less-equal operator; and the chained
comparison 1 < x < 2 raises the parsing exception. -/
theorem claim5_relations :
    cleanup_string "x = 1" true = .ok "x == 1" ∧
    parse_expr "x == 1" [] .noneA =
      .valR (.vexpr (.eqE (.symbol "x") (.intL 1))) ∧
    cleanup_string "x <= 1" true = .ok "x <= 1" ∧
    parse_expr "x <= 1" [] .noneA =
      .valR (.vexpr (.relE (.symbol "x") (.intL 1) "<=")) ∧
    cleanup_string "1 < x < 2" true = .ok "1 < x < 2" ∧
    parse_expr "1 < x < 2" [] .noneA = .parseErr :=
  ⟨rfl, rfl, rfl, rfl, rfl, rfl⟩

/-- Claim C7.  Parsing log(x) without hints applies the base-ten logarithm
wrapper, giving the two-argument log application with base 10; with the
natural_logarithm hint the plain one-argument natural logarithm is applied
instead. -/
theorem claim7_logarithm :
    parse_expr "log(x)" [] .noneA =
      .valR (.vexpr (.fnE "log" [.symbol "x", .intL 10])) ∧
    parse_expr "log(x)" [] (.listA ["natural_logarithm"]) =
      .valR (.vexpr (.fnE "log" [.symbol "x"])) :=
  ⟨rfl, rfl⟩

/-- Claim C8, counterexample.  A set of hint keys is not processed at all:
the hint loop runs only for a list or tuple, so passing the
natural_logarithm hint inside a set leaves the base-ten default in place. -/
theorem claim8_counterexample :
    parse_expr "log(x)" [] (.setA ["natural_logarithm"]) =
      .valR (.vexpr (.fnE "log" [.symbol "x", .intL 10])) ∧
    parse_expr "log(x)" [] (.listA ["natural_logarithm"]) =
      .valR (.vexpr (.fnE "log" [.symbol "x"])) ∧
    parse_expr "log(x)" [] (.setA ["natural_logarithm"]) ≠
      parse_expr "log(x)" [] (.listA ["natural_logarithm"]) := by
  have h1 : parse_expr "log(x)" [] (.setA ["natural_logarithm"]) =
      .valR (.vexpr (.fnE "log" [.symbol "x", .intL 10])) := rfl
  have h2 : parse_expr "log(x)" [] (.listA ["natural_logarithm"]) =
      .valR (.vexpr (.fnE "log" [.symbol "x"])) := rfl
  refine ⟨h1, h2, ?_⟩
  rw [h1, h2]
  simp

/-- Claim C8, amended.  When the hints argument is a list or tuple, the
known hints are merged into the binding table in order, every unknown hint
key is skipped without error, and each known hint key contributes its named
bindings; a hints argument of any other type, including a set, is ignored
entirely. -/
theorem claim8_amended :
    (∀ (d : Dict) (hs : List String),
      effectiveDict d (.listA hs) = mergeHints d hs ∧
      effectiveDict d (.tupleA hs) = mergeHints d hs) ∧
    (∀ (d : Dict) (hs1 hs2 : List String) (h : String),
      hintBindings h = none →
      mergeHints d (hs1 ++ h :: hs2) = mergeHints d (hs1 ++ hs2)) ∧
    (∀ (d : Dict) (h k : String) (bs : Dict) (v : Binding),
      hintBindings h = some bs → lookupD bs.reverse k = some v →
      lookupD (mergeHints d [h]) k = some v) ∧
    (∀ (d : Dict) (hs : List String), effectiveDict d (.setA hs) = d) := by
  refine ⟨fun d hs => ⟨rfl, rfl⟩, ?_, ?_, fun d hs => rfl⟩
  · exact fun d hs1 hs2 h hh => mergeHints_unknown d hs1 hs2 h hh
  · exact fun d h k bs v hb hv => lookup_mergeHints_single d h k bs v hb hv

/-- Witness for the amended claim C8: an unknown hint key between two known
ones changes nothing, and the natural_logarithm hint binds log. -/
theorem claim8_amended_witness :
    mergeHints [] (["constant_pi"] ++ "bogus_hint" :: ["constant_e"]) =
      mergeHints [] (["constant_pi"] ++ ["constant_e"]) ∧
    lookupD (mergeHints [] ["natural_logarithm"]) "log" =
      some (Binding.bfunc FnSem.natlogF) := by
  constructor
  · exact claim8_amended.2.1 [] ["constant_pi"] ["constant_e"] "bogus_hint" rfl
  · exact claim8_amended.2.2.1 [] "natural_logarithm" "log" _ _ rfl rfl

/-- Claim C10.  With a caller-supplied dictionary and a list (or tuple) of
hint keys, the hint loop updates the dictionary object the caller passed,
through the caller reference: after the call the store holds the updated
dictionary at the same reference, no other reference is touched, and the
dictionary parse_expr goes on to use is exactly that updated value. -/
theorem claim10_inplace :
    ∀ (st : Store) (r : Nat) (d : Dict) (hs : List String),
      st[r]? = some d →
      (hintLoopEffect st r (.listA hs))[r]? = some (mergeHints d hs) ∧
      (hintLoopEffect st r (.tupleA hs))[r]? = some (mergeHints d hs) ∧
      (∀ r2, r2 ≠ r → (hintLoopEffect st r (.listA hs))[r2]? = st[r2]?) ∧
      effectiveDict d (.listA hs) = mergeHints d hs := by
  intro st r d hs hr
  have hlt : r < st.length := by
    by_contra hge
    rw [List.getElem?_eq_none (by omega)] at hr
    exact Option.noConfusion hr
  refine ⟨?_, ?_, ?_, rfl⟩
  · simp [hintLoopEffect, hr, List.getElem?_set_self, hlt]
  · simp [hintLoopEffect, hr, List.getElem?_set_self, hlt]
  · intro r2 hne
    simp [hintLoopEffect, hr, List.getElem?_set_ne (fun hc => hne hc.symm)]

/-- Claim C4.  With strict rejection, cleanup_string raises UnsafeInput
exactly when the sentinel survives the replacement pass, aborting before
any later stage; without strict rejection the call always succeeds and no
sentinel remains in the returned string. -/
theorem claim4_sentinel :
    (∀ s : String, cleanup_string s true = .error () ↔
      '?' ∈ replaceUnsafe (subNonAscii s.data)) ∧
    (∀ s : String, ∃ t, cleanup_string s false = .ok t ∧ '?' ∉ t.data) := by
  constructor
  · intro s
    by_cases hq : '?' ∈ replaceUnsafe (subNonAscii s.data)
    · simp [cleanup_string, hq]
    · simp [cleanup_string, hq]
  · intro s
    refine ⟨_, rfl, ?_⟩
    intro hq
    have hmem := mem_cleanupPost _ '?' hq
    rcases hmem with h | h
    · simp only [List.mem_map] at h
      obtain ⟨a, _, ha⟩ := h
      by_cases haq : a = '?' <;> simp [haq] at ha
    · simp at h

/-- Witness for claim C4: an input with a disallowed character is rejected
in strict mode, and in recovery mode it comes back sentinel-free. -/
theorem claim4_sentinel_witness :
    cleanup_string "rm[" true = .error () ∧
    ∃ t, cleanup_string "rm[" false = .ok t ∧ '?' ∉ t.data := by
  constructor
  · exact (claim4_sentinel.1 "rm[").mpr (by decide)
  · exact claim4_sentinel.2 "rm["

/-- Claim C9, counterexample.  A maximal run of superscript digit
characters is not always prefixed by a power operator: the superscript
minus has a unicodedata name starting with SUPERSCRIPT, so it is emitted
unchanged but makes a following superscript digit count as a continuation,
and the sanitizer decodes x superscript-minus superscript-two to the bare
digit form x⁻2 rather than x⁻**2; the full cleanup in recovery mode then
yields x 2, with no power operator. -/
theorem claim9_counterexample :
    uniName '⁻' = some .supOther ∧
    uniName '²' = some (.supDigit '2') ∧
    subNonAscii ['x', '⁻', '²'] = ['x', '⁻', '2'] ∧
    subNonAscii ['x', '⁻', '²'] ≠ ['x', '⁻', '*', '*', '2'] ∧
    cleanup_string "x⁻²" false = .ok "x 2" := by
  refine ⟨rfl, rfl, rfl, ?_, rfl⟩
  decide

/-- Claim C9, amended.  A nonempty run of superscript digit characters
decodes to a single power operator followed by the digits in order whenever
the preceding name state does not itself start with SUPERSCRIPT; after a
SUPERSCRIPT-starting name the run continues and the digits are emitted with
no fresh power operator, and a character with a non-digit SUPERSCRIPT name
(such as the superscript minus) passes through unchanged while switching
the state into that continuation mode.  A vulgar fraction glyph decodes to
the bracketed quotient, and concretely the sanitizer maps the superscript
two after x to x**2 and the one-half glyph to (1/2), whose parses are the
power tree and the unevaluated quotient tree. -/
theorem claim9_amended :
    (∀ (prev : Option UniName) (ds : List Char), ds ≠ [] →
      isSupName prev = false →
      (∀ c ∈ ds, ∃ d, uniName c = some (.supDigit d)) →
      subNonAsciiGo prev ds = '*' :: '*' :: ds.map supVal) ∧
    (∀ (prev : Option UniName) (ds : List Char),
      isSupName prev = true →
      (∀ c ∈ ds, ∃ d, uniName c = some (.supDigit d)) →
      subNonAsciiGo prev ds = ds.map supVal) ∧
    (∀ (prev : Option UniName) (c : Char) (rest : List Char),
      uniName c = some .supOther →
      subNonAsciiGo prev (c :: rest) = c :: subNonAsciiGo (some .supOther) rest) ∧
    isSupName (some .supOther) = true ∧
    (∀ (c : Char) (n m : Nat) (prev : Option UniName) (rest : List Char),
      uniName c = some (.vulgar n m) →
      subNonAsciiGo prev (c :: rest) =
        ('(' :: smallDigits n ++ '/' :: smallDigits m ++ [')']) ++
          subNonAsciiGo (uniName c) rest) ∧
    cleanup_string "x²" true = .ok "x**2" ∧
    parseTree "x**2" [] .noneA = some (.powE (.symbol "x") (.intL 2)) ∧
    cleanup_string "½" true = .ok "(1/2)" ∧
    parseTree "(1/2)" [] .noneA =
      some (.mulE [.intL 1, .powE (.intL 2) (.intL (-1))]) := by
  refine ⟨?_, ?_, ?_, rfl, ?_, rfl, rfl, rfl, rfl⟩
  · intro prev ds hne hprev hall
    rcases ds with _ | ⟨c, t⟩
    · exact absurd rfl hne
    · obtain ⟨d, hd⟩ := hall c (by simp)
      have hna : isAsciiChar c = false := uniName_nonascii c _ hd
      have hp : procChar prev c = ['*', '*', d] := by
        simp [procChar, hd, hprev]
      have hs : supVal c = d := by simp [supVal, hd]
      simp only [subNonAsciiGo, hna, Bool.false_eq_true, if_false, hp, hd,
        List.map, hs]
      rw [supRun_aux t (some (.supDigit d)) rfl (fun x hx => hall x (by simp [hx]))]
      rfl
  · intro prev ds hprev hall
    exact supRun_aux ds prev hprev hall
  · intro prev c rest h
    have hna : isAsciiChar c = false := uniName_nonascii c _ h
    simp [subNonAsciiGo, hna, procChar, h]
  · intro c n m prev rest h
    have hna : isAsciiChar c = false := uniName_nonascii c _ h
    simp [subNonAsciiGo, hna, procChar, h]

/-- Witness for the amended claim C9: a fresh superscript two-three run
decodes to a single power with the two-digit exponent, a superscript two
after the superscript minus decodes to the bare digit, and the one-half
glyph decodes to the bracketed quotient. -/
theorem claim9_amended_witness :
    subNonAsciiGo none ['²', '³'] = ['*', '*', '2', '3'] ∧
    subNonAsciiGo (some .supOther) ['²'] = ['2'] ∧
    subNonAsciiGo none ['⁻', '²'] = ['⁻', '2'] ∧
    subNonAsciiGo none ['½'] = ['(', '1', '/', '2', ')'] := by
  refine ⟨?_, ?_, ?_, ?_⟩
  · have h := claim9_amended.1 none ['²', '³'] (by simp) rfl (by
      intro c hc
      fin_cases hc
      · exact ⟨'2', rfl⟩
      · exact ⟨'3', rfl⟩)
    rw [h]
    rfl
  · have h := claim9_amended.2.1 (some .supOther) ['²'] rfl (by
      intro c hc
      fin_cases hc
      exact ⟨'2', rfl⟩)
    rw [h]
    rfl
  · have h1 := claim9_amended.2.2.1 none '⁻' ['²'] rfl
    rw [h1]
    have h2 := claim9_amended.2.1 (some .supOther) ['²'] rfl (by
      intro c hc
      fin_cases hc
      exact ⟨'2', rfl⟩)
    rw [h2]
    rfl
  · have h := claim9_amended.2.2.2.2.1 '½' 1 2 none [] rfl
    rw [h]
    rfl

/-- Witness for claim C10, at a one-dictionary store and the constant_e
hint. -/
theorem claim10_inplace_witness :
    (hintLoopEffect [[("e", Binding.bconst (SExpr.symbol "e"))]] 0
      (.listA ["constant_e"]))[0]? =
      some (mergeHints [("e", Binding.bconst (SExpr.symbol "e"))]
        ["constant_e"]) :=
  (claim10_inplace [[("e", Binding.bconst (SExpr.symbol "e"))]] 0
    [("e", Binding.bconst (SExpr.symbol "e"))] ["constant_e"] rfl).1

theorem cleanup_string_allowed (s : String) (r : Bool)
    (hall : ∀ c ∈ s.data, allowedChar c = true) :
    cleanup_string s r = .ok (String.mk (cleanupPost s.data)) := by
  have h1 : subNonAscii s.data = s.data := subNonAsciiGo_allowed s.data none hall
  have hcomb : replaceUnsafe (subNonAscii s.data) = s.data := by
    rw [h1]
    exact replaceUnsafeGo_allowed s.data false hall
  have hq : '?' ∉ s.data := noq_of_allowed s.data hall
  cases r with
  | true =>
    show (if '?' ∈ replaceUnsafe (subNonAscii s.data) then Except.error ()
        else Except.ok (String.mk (cleanupPost (replaceUnsafe (subNonAscii s.data))))) =
      Except.ok (String.mk (cleanupPost s.data))
    rw [hcomb, if_neg hq]
  | false =>
    show Except.ok (String.mk (cleanupPost ((replaceUnsafe (subNonAscii s.data)).map
        (fun c => if c = '?' then ' ' else c)))) =
      Except.ok (String.mk (cleanupPost s.data))
    rw [hcomb, map_noq s.data hq]

/-- Claim C6, counterexample.  Running cleanup_string twice is not always the
same as running it once: on the input a dot dot dot b the first run turns the
first dot into a space and keeps the third dot (the second dot was consumed
as part of the first match), and the second run then removes that surviving
dot, so the two outputs differ. -/
theorem claim6_counterexample :
    cleanup_string "a...b" true = .ok "a  .b" ∧
    cleanup_string "a  .b" true = .ok "a   b" ∧
    ("a  .b" : String) ≠ "a   b" :=
  ⟨rfl, rfl, by decide⟩

/-- Claim C6, amended.  Applying the cleanup function to its own output
changes nothing further, provided the input contains only whitelisted
characters and no decimal point: the first run then succeeds, and a second
run over the result returns it unchanged, for either setting of the
rejection flag.  Dots void the guarantee because the two dot substitutions
scan left to right over non-overlapping matches and can leave a dot that
only a second pass rewrites. -/
theorem claim6_amended (s : String) (r : Bool)
    (hall : ∀ c ∈ s.data, allowedChar c = true) (hnd : '.' ∉ s.data) :
    ∃ t, cleanup_string s r = .ok t ∧ cleanup_string t r = .ok t := by
  refine ⟨String.mk (cleanupPost s.data), cleanup_string_allowed s r hall, ?_⟩
  have htall : ∀ c ∈ cleanupPost s.data, allowedChar c = true := by
    intro c hc
    rcases mem_cleanupPost s.data c hc with h | h
    · exact hall c h
    · rw [h]; decide
  have htnd : '.' ∉ cleanupPost s.data := by
    intro hc
    rcases mem_cleanupPost s.data '.' hc with h | h
    · exact hnd h
    · exact absurd h (by decide)
  have hstep := cleanup_string_allowed (String.mk (cleanupPost s.data)) r htall
  rw [hstep]
  have hlam0 : hasSub lamPat (lamRepl (subB (subA s.data))) = false := lamRepl_noLam _
  have hlam1 : hasSub lamPat (capLamRepl (lamRepl (subB (subA s.data)))) = false :=
    noLam_capLamRepl _ hlam0
  have hlam2 : hasSub lamPat (dundRepl (capLamRepl (lamRepl (subB (subA s.data))))) = false :=
    noSub_dundRepl 'l' ['a', 'm', 'b', 'd', 'a'] (by decide) (by decide) _ hlam1
  have hlamT : hasSub lamPat (cleanupPost s.data) = false :=
    noSub_upEq 'l' ['a', 'm', 'b', 'd', 'a'] (by decide) (by decide) none _ hlam2
  have hcap0 : hasSub capLamPat (capLamRepl (lamRepl (subB (subA s.data)))) = false :=
    capLamRepl_noCap _
  have hcap1 : hasSub capLamPat (dundRepl (capLamRepl (lamRepl (subB (subA s.data))))) = false :=
    noSub_dundRepl 'L' ['a', 'm', 'b', 'd', 'a'] (by decide) (by decide) _ hcap0
  have hcapT : hasSub capLamPat (cleanupPost s.data) = false :=
    noSub_upEq 'L' ['a', 'm', 'b', 'd', 'a'] (by decide) (by decide) none _ hcap1
  have hdund0 : hasSub dundPat (dundRepl (capLamRepl (lamRepl (subB (subA s.data))))) = false :=
    dundRepl_noDund _
  have hdundT : hasSub dundPat (cleanupPost s.data) = false :=
    noSub_upEq '_' ['_'] (by decide) (by decide) none _ hdund0
  have hpost : cleanupPost (cleanupPost s.data) = cleanupPost s.data := by
    show upEq none (dundRepl (capLamRepl (lamRepl (subB (subA (cleanupPost s.data)))))) =
      cleanupPost s.data
    rw [subA_nodot _ htnd, subB_nodot _ htnd, lamRepl_id _ hlamT, capLamRepl_id _ hcapT,
      dundRepl_id _ hdundT]
    show upEq none (upEq none (dundRepl (capLamRepl (lamRepl (subB (subA s.data)))))) =
      cleanupPost s.data
    rw [upEq_idem]
    rfl
  rw [show (String.mk (cleanupPost s.data)).data = cleanupPost s.data from rfl, hpost]

/-- Witness for the amended claim C6, on an input exercising the underscore,
equals and lambda rewrites. -/
theorem claim6_amended_witness :
    ∃ t, cleanup_string "x__y = lambda" true = .ok t ∧
      cleanup_string t true = .ok t :=
  claim6_amended "x__y = lambda" true (by decide) (by decide)

end EqualityChecker
